import Mathlib

/-!
Shallow embedding of the devhaven project catalog (src/devhaven):
`domain/models.py`, `infrastructure/config_store.py`,
`infrastructure/project_repository.py`, `application/project_service.py`,
and the selection/terminal logic of `presentation/app.py` and
`presentation/terminal.py`.

Python dynamic values appearing in the persisted JSON document are modelled
by `PyVal`; machine-level details (real clock, filesystem, pty) are passed
in as explicit parameters.
-/

set_option autoImplicit false

namespace DevHaven

/-- JSON-representable Python values as they occur in the persisted
`config.json` document (`None`, `int`, `str`, `list`, `dict`). -/
inductive PyVal where
  | pnone : PyVal
  | pint : Int → PyVal
  | pstr : String → PyVal
  | plist : List PyVal → PyVal
  | pdict : List (String × PyVal) → PyVal

/-- First value bound to key `k`, if any (Python dicts have unique keys, so
association-list lookup of the first match is faithful). -/
def findEntry : List (String × PyVal) → String → Option PyVal
  | [], _ => none
  | (k', v') :: rest, k => if k' = k then some v' else findEntry rest k

/-- `d.get(k)` (default `None`). -/
def dictGet (v : PyVal) (k : String) : PyVal :=
  match v with
  | .pdict es => (findEntry es k).getD .pnone
  | _ => .pnone

/-- `d.get(k, dflt)`. -/
def dictGetD (v : PyVal) (k : String) (dflt : PyVal) : PyVal :=
  match v with
  | .pdict es => (findEntry es k).getD dflt
  | _ => dflt

/-- Replace the binding of `k` (or append it). -/
def setEntry : List (String × PyVal) → String → PyVal → List (String × PyVal)
  | [], k, v => [(k, v)]
  | (k', v') :: rest, k, v =>
    if k' = k then (k, v) :: rest else (k', v') :: setEntry rest k v

/-- `d[k] = v` on a dict (non-dicts cannot be indexed in the source; the
result on them is immaterial and chosen totally). -/
def dictSet (d : PyVal) (k : String) (v : PyVal) : PyVal :=
  match d with
  | .pdict es => .pdict (setEntry es k v)
  | _ => .pdict [(k, v)]

/-- `isinstance(v, dict)`. -/
def isDictB : PyVal → Bool
  | .pdict _ => true
  | _ => false

/-- Python truthiness of a JSON value. -/
def pyTruthy : PyVal → Bool
  | .pnone => false
  | .pint n => n != 0
  | .pstr s => s ≠ ""
  | .plist xs => !xs.isEmpty
  | .pdict es => !es.isEmpty

/-- Decimal digits, most significant first; the first argument is fuel
(the value itself always suffices, since `n / 10 < n`). -/
def natDigitsB : Nat → Nat → List Char
  | 0, n => [Nat.digitChar n]
  | fuel + 1, n =>
    if n < 10 then [Nat.digitChar n]
    else natDigitsB fuel (n / 10) ++ [Nat.digitChar (n % 10)]

/-- Decimal digits of a natural number, most significant first. -/
def natDigits (n : Nat) : List Char := natDigitsB n n

/-- `str` of a Python int. -/
def intRepr : Int → String
  | .ofNat m => ⟨natDigits m⟩
  | .negSucc m => ⟨'-' :: natDigits (m + 1)⟩

/-- `sep.join(xs)`. -/
def joinWith (sep : String) : List String → String
  | [] => ""
  | [s] => s
  | s :: rest => s ++ sep ++ joinWith sep rest

mutual
/-- `str(v)` for a JSON value.  The rendering of the elements of nested
containers is approximate (Python uses `repr` with quoting); only its
non-emptiness matters to the development. -/
def pyStr : PyVal → String
  | .pnone => "None"
  | .pint n => intRepr n
  | .pstr s => s
  | .plist xs => "[" ++ joinWith ", " (pyStrList xs) ++ "]"
  | .pdict es => "\x7b" ++ joinWith ", " (pyStrEntries es) ++ "\x7d"
termination_by structural v => v

def pyStrList : List PyVal → List String
  | [] => []
  | v :: vs => pyStr v :: pyStrList vs
termination_by structural l => l

def pyStrEntries : List (String × PyVal) → List String
  | [] => []
  | (k, v) :: es => (k ++ ": " ++ pyStr v) :: pyStrEntries es
termination_by structural l => l
end

/-- Python `s.strip()`: drop leading and trailing whitespace. -/
def pyStrip (s : String) : String :=
  ⟨((s.data.dropWhile Char.isWhitespace).reverse.dropWhile Char.isWhitespace).reverse⟩

/-- `s.split(",")` (never empty: splitting the empty string gives `[""]`). -/
def splitCommaAux : List Char → List Char → List String
  | [], acc => [⟨acc.reverse⟩]
  | c :: rest, acc =>
    if c = ',' then ⟨acc.reverse⟩ :: splitCommaAux rest []
    else splitCommaAux rest (c :: acc)

/-- `s.split(",")`. -/
def splitComma (s : String) : List String := splitCommaAux s.data []

/-- Accumulator step for parsing a digit string. -/
def digitsToNatAux : List Char → Nat → Option Nat
  | [], acc => some acc
  | c :: rest, acc =>
    if c.isDigit then digitsToNatAux rest (acc * 10 + (c.toNat - 48)) else none

/-- Parse a non-empty all-digit character list. -/
def digitsToNat : List Char → Option Nat
  | [] => none
  | c :: rest => digitsToNatAux (c :: rest) 0

/-- Parse an optionally signed decimal integer (the strings accepted by
Python `int(...)` after whitespace stripping, modulo exotic forms such as
underscores, which the development never relies on). -/
def parseIntStr (s : String) : Option Int :=
  match s.data with
  | '-' :: rest => (digitsToNat rest).map (fun m => -(m : Int))
  | '+' :: rest => (digitsToNat rest).map (fun m => (m : Int))
  | cs => (digitsToNat cs).map (fun m => (m : Int))

/-- Python `int(v)` on a JSON value: ints pass through, strings are parsed
(after stripping), everything else raises (`none`). -/
def pyIntCoerce : PyVal → Option Int
  | .pint n => some n
  | .pstr s => parseIntStr (pyStrip s)
  | _ => none

/-! ### String comparison and search, as Python performs them -/

/-- Lexicographic `≤` on code points, i.e. Python string comparison. -/
def clLe : List Char → List Char → Bool
  | [], _ => true
  | _ :: _, [] => false
  | a :: as, b :: bs =>
    if a.toNat < b.toNat then true
    else if b.toNat < a.toNat then false
    else clLe as bs

/-- Python `s <= t` on strings. -/
def strLe (s t : String) : Bool := clLe s.data t.data

/-- `p` is an initial segment of `l`. -/
def leadsCL : List Char → List Char → Bool
  | [], _ => true
  | _ :: _, [] => false
  | a :: as, b :: bs => a == b && leadsCL as bs

/-- `p` occurs as a contiguous run of `l`. -/
def subCL (p : List Char) : List Char → Bool
  | [] => p.isEmpty
  | c :: t => leadsCL p (c :: t) || subCL p t

/-- Python `q in hay` (substring containment). -/
def subStr (q hay : String) : Bool := subCL q.data hay.data

/-- Python `s.lower()` (modelled on the ASCII range, which is all the
development depends on). -/
def lowerStr (s : String) : String := ⟨s.data.map Char.toLower⟩

/-! ### domain/models.py -/

def DEFAULT_SPACE : String := "个人"

/-- `normalize_tags`: strip each tag, drop empties, de-duplicate keeping the
first occurrence. -/
def normalize_tags (tags : List String) : List String :=
  tags.foldl
    (fun acc tag =>
      let item := pyStrip tag
      if item ≠ "" && !acc.contains item then acc ++ [item] else acc)
    []

/-- `normalize_space`: strip, blank falls back to the default sentinel. -/
def normalize_space (space : String) : String :=
  let candidate := pyStrip space
  if candidate = "" then DEFAULT_SPACE else candidate

/-- `domain.models.Project`. -/
structure Project where
  id : Int
  name : String
  path : String
  space : String
  tags : List String
  created_at : String
  updated_at : String
  last_opened_at : Option String
  deriving DecidableEq, Repr

/-! ### Stable sorting (Python `sorted`)

Python's `sorted(..., key=k)` is a stable ascending sort; `reverse=True` is
the stable descending sort.  Both are embedded as the stable insertion sort
`sortL le` with `le x y` meaning "x may stay before y": `le x y = key x ≤
key y` for an ascending sort and `le x y = key y ≤ key x` for a descending
one.  Ties keep their original relative order, exactly as in Python. -/

/-- Stable insertion of `x`: it goes in front of the first element it is
allowed to precede. -/
def sIns {α : Type} (le : α → α → Bool) (x : α) : List α → List α
  | [] => [x]
  | y :: ys => if le x y then x :: y :: ys else y :: sIns le x ys

/-- Stable sort. -/
def sortL {α : Type} (le : α → α → Bool) : List α → List α
  | [] => []
  | x :: xs => sIns le x (sortL le xs)

/-! ### infrastructure/project_repository.py

The persisted document (a Python dict produced by `load_config`) is a
`PyVal`.  `save_config` serializes deterministically and `load_config`
parses back the same value, so a mutate-and-save step is embedded as a
function from the document to the new document; an operation that returns
without calling `save_config` returns its input document unchanged. -/

/-- `_coerce_tags`. -/
def coerce_tags : PyVal → List String
  | .plist xs => normalize_tags (pyStrList xs)
  | .pstr s => normalize_tags (splitComma s)
  | _ => []

/-- `_project_from_dict`: minimal validation of one raw record.  `now` is
the value `now_iso()` would return for the defaulted timestamps. -/
def project_from_dict (now : String) (data : PyVal) : Option Project :=
  if !isDictB data then none
  else
    match pyIntCoerce (dictGet data "id") with
    | none => none
    | some project_id =>
      let name := pyStrip (pyStr (dictGetD data "name" (.pstr "")))
      let path := pyStrip (pyStr (dictGetD data "path" (.pstr "")))
      if name = "" || path = "" then none
      else
        let space := normalize_space (pyStr (dictGetD data "space" (.pstr "")))
        let tags := coerce_tags (dictGet data "tags")
        let createdV := dictGet data "created_at"
        let created_at := if pyTruthy createdV then pyStr createdV else now
        let updatedV := dictGet data "updated_at"
        let updated_at := if pyTruthy updatedV then pyStr updatedV else created_at
        let lastV := dictGet data "last_opened_at"
        let last_opened := if pyTruthy lastV then some (pyStr lastV) else none
        some { id := project_id, name := name, path := path, space := space,
               tags := tags, created_at := created_at, updated_at := updated_at,
               last_opened_at := last_opened }

/-- `_project_id`: best-effort int of the `id` field, `0` on failure. -/
def project_idOf (data : PyVal) : Int :=
  (pyIntCoerce (dictGetD data "id" (.pint 0))).getD 0

/-- `_next_project_id`: one more than the largest existing id (at least 1). -/
def next_project_id_of (projects : List PyVal) : Int :=
  let max_id := projects.foldl
    (fun max_id item =>
      if isDictB item then
        (if project_idOf item > max_id then project_idOf item else max_id)
      else max_id)
    0
  if max_id ≥ 1 then max_id + 1 else 1

/-- The `projects` entry of a (normalized) document. -/
def projectsOf (config : PyVal) : List PyVal :=
  match dictGet config "projects" with
  | .plist xs => xs
  | _ => []

/-- The `next_project_id` entry of a (normalized) document. -/
def nextIdOf (config : PyVal) : Int :=
  match dictGet config "next_project_id" with
  | .pint n => n
  | _ => 0

/-- `_load_state`: force `projects` to a list and `next_project_id` to an
int that is at least 1 (recomputing it from the records otherwise). -/
def load_state (config : PyVal) : PyVal :=
  let projects : PyVal :=
    match dictGet config "projects" with
    | .plist xs => .plist xs
    | _ => .plist []
  let config := dictSet config "projects" projects
  let next_id : Int :=
    match dictGet config "next_project_id" with
    | .pint n => if n < 1 then next_project_id_of (projectsOf config) else n
    | _ => next_project_id_of (projectsOf config)
  dictSet config "next_project_id" (.pint next_id)

/-- `ensure_schema`: load and immediately re-save. -/
def ensure_schema (doc : PyVal) : PyVal := load_state doc

/-- Sort key of the second (primary) sort: `item.last_opened_at or ""`. -/
def lastKey (p : Project) : String := p.last_opened_at.getD ""

/-- Sort key of the first (secondary) sort: `item.name.lower()`. -/
def nameKey (p : Project) : String := lowerStr p.name

/-- `_matches_query` (the query is already stripped and lowercased). -/
def matches_query (p : Project) (query : String) : Bool :=
  subStr query (lowerStr p.name) || subStr query (lowerStr p.path) ||
    subStr query (lowerStr p.space) ||
    subStr query (lowerStr (joinWith "," p.tags))

/-- `list_projects`. -/
def list_projects (doc : PyVal) (query : String) (now : String) : List Project :=
  let config := load_state doc
  let projects := (projectsOf config).filterMap (project_from_dict now)
  let query := lowerStr (pyStrip query)
  let projects :=
    if query ≠ "" then projects.filter (fun p => matches_query p query)
    else projects
  let projects := sortL (fun a b => strLe (nameKey a) (nameKey b)) projects
  sortL (fun a b => strLe (lastKey b) (lastKey a)) projects

/-- `list_project_paths` (the Python set is embedded as the list of its
members; only membership is ever used). -/
def list_project_paths (doc : PyVal) : List String :=
  (projectsOf (load_state doc)).filterMap fun item =>
    if isDictB item then
      match dictGet item "path" with
      | .pstr p => if p ≠ "" then some p else none
      | _ => none
    else none

/-- The loop body of `get_project`. -/
def findParsed (now : String) (pid : Int) : List PyVal → Option Project
  | [] => none
  | item :: rest =>
    match project_from_dict now item with
    | some project =>
      if project.id = pid then some project else findParsed now pid rest
    | none => findParsed now pid rest

/-- `get_project`. -/
def get_project (doc : PyVal) (project_id : Int) (now : String) : Option Project :=
  findParsed now project_id (projectsOf (load_state doc))

/-- The raw record `create_project` appends. -/
def mkProjectItem (pid : Int) (name path space : String) (tags : List String)
    (now : String) : PyVal :=
  .pdict [("id", .pint pid), ("name", .pstr name), ("path", .pstr path),
          ("space", .pstr (normalize_space space)),
          ("tags", .plist ((normalize_tags tags).map .pstr)),
          ("created_at", .pstr now), ("updated_at", .pstr now),
          ("last_opened_at", .pnone)]

/-- `create_project`. -/
def create_project (doc : PyVal) (name path space : String) (tags : List String)
    (now : String) : PyVal :=
  let config := load_state doc
  let project_id := nextIdOf config
  let config := dictSet config "next_project_id" (.pint (project_id + 1))
  dictSet config "projects"
    (.plist (projectsOf config ++ [mkProjectItem project_id name path space tags now]))

/-- `_find_project` succeeds: some raw dict record has the given id. -/
def hasProjectId (projects : List PyVal) (pid : Int) : Bool :=
  projects.any fun item => isDictB item && project_idOf item = pid

/-- In-place mutation of the record `_find_project` returned: rewrite the
first matching record of the list. -/
def updateFirstProject (pid : Int) (f : PyVal → PyVal) : List PyVal → List PyVal
  | [] => []
  | item :: rest =>
    if isDictB item && project_idOf item = pid then f item :: rest
    else item :: updateFirstProject pid f rest

/-- The field rewrites `update_project` performs on the found record. -/
def updatedProjectItem (item : PyVal) (name path space : String)
    (tags : List String) (now : String) : PyVal :=
  let item := dictSet item "name" (.pstr name)
  let item := dictSet item "path" (.pstr path)
  let item := dictSet item "space" (.pstr (normalize_space space))
  let item := dictSet item "tags" (.plist ((normalize_tags tags).map .pstr))
  dictSet item "updated_at" (.pstr now)

/-- `update_project`: silently a no-op (no save) when the id is unknown. -/
def update_project (doc : PyVal) (project_id : Int) (name path space : String)
    (tags : List String) (now : String) : PyVal :=
  let config := load_state doc
  if hasProjectId (projectsOf config) project_id then
    dictSet config "projects"
      (.plist (updateFirstProject project_id
        (fun item => updatedProjectItem item name path space tags now)
        (projectsOf config)))
  else doc

/-- `delete_project`: drop every matching record, save only if some record
was actually removed. -/
def delete_project (doc : PyVal) (project_id : Int) : PyVal :=
  let config := load_state doc
  let original := projectsOf config
  let kept := original.filter fun item =>
    !(isDictB item && project_idOf item = project_id)
  if kept.length ≠ original.length then dictSet config "projects" (.plist kept)
  else doc

/-- The field rewrites `touch_opened` performs on the found record. -/
def touchedProjectItem (item : PyVal) (now : String) : PyVal :=
  dictSet (dictSet item "last_opened_at" (.pstr now)) "updated_at" (.pstr now)

/-- `touch_opened`: silently a no-op (no save) when the id is unknown. -/
def touch_opened (doc : PyVal) (project_id : Int) (now : String) : PyVal :=
  let config := load_state doc
  if hasProjectId (projectsOf config) project_id then
    dictSet config "projects"
      (.plist (updateFirstProject project_id
        (fun item => touchedProjectItem item now)
        (projectsOf config)))
  else doc

/-! ### application/project_service.py -/

/-- `ImportSummary`. -/
structure ImportSummary where
  added : Nat
  skipped_existing : Nat
  skipped_hidden : Nat
  total_children : Nat
  space : String
  deriving DecidableEq, Repr

/-- One entry of `parent_path.iterdir()`: its `name`, whether it `is_dir()`,
and its `resolve().as_posix()` absolute path. -/
structure DirEntry where
  name : String
  isDir : Bool
  resolved : String
  deriving DecidableEq, Repr

/-- The `parent_path` argument as the filesystem presents it: whether it
`exists()`, whether it `is_dir()`, its `name`, and its entries. -/
structure ParentDir where
  pexists : Bool
  isDir : Bool
  pname : String
  entries : List DirEntry
  deriving DecidableEq, Repr

/-- `child.name.startswith(".")`. -/
def startsWithDot (s : String) : Bool :=
  match s.data with
  | '.' :: _ => true
  | _ => false

/-- The `for child in sorted(children, ...)` loop of `import_projects`,
threading the document, the in-memory path set and the three counters. -/
def importLoop (space_value : String) (tags : List String) (now : String) :
    List DirEntry → PyVal → List String → Nat → Nat → Nat →
      PyVal × Nat × Nat × Nat
  | [], doc, _, added, se, sh => (doc, added, se, sh)
  | child :: rest, doc, existing, added, se, sh =>
    if startsWithDot child.name then
      importLoop space_value tags now rest doc existing added se (sh + 1)
    else if existing.contains child.resolved then
      importLoop space_value tags now rest doc existing added (se + 1) sh
    else
      importLoop space_value tags now rest
        (create_project doc child.name child.resolved space_value tags now)
        (child.resolved :: existing) (added + 1) se sh

/-- `import_projects`; `FileNotFoundError` is the `error` branch. -/
def import_projects (parent : ParentDir) (doc : PyVal) (space : String)
    (tags : List String) (now : String) : Except Unit (ImportSummary × PyVal) :=
  if !parent.pexists || !parent.isDir then .error ()
  else
    let children := parent.entries.filter (·.isDir)
    let space_value :=
      if pyStrip space ≠ "" then pyStrip space
      else if pyStrip parent.pname ≠ "" then pyStrip parent.pname
      else DEFAULT_SPACE
    let existing_paths := list_project_paths doc
    let sortedChildren :=
      sortL (fun a b => strLe (lowerStr a.name) (lowerStr b.name)) children
    match importLoop space_value tags now sortedChildren doc existing_paths 0 0 0 with
    | (doc', added, se, sh) =>
      .ok ({ added := added, skipped_existing := se, skipped_hidden := sh,
             total_children := children.length, space := space_value }, doc')

/-! ### presentation/app.py — selection resolution on refresh -/

/-- The selection state of the app (`selected_project_id`/`selected_space`,
of which at most one is set). -/
inductive Selection where
  | noSel : Selection
  | projSel : Int → Selection
  | spaceSel : String → Selection
  deriving DecidableEq, Repr

/-- `spaces.setdefault(project.space, []).append(project)`: group one more
project, keeping first-occurrence key order. -/
def addToGroup : List (String × List Project) → Project →
    List (String × List Project)
  | [], p => [(p.space, [p])]
  | (s, xs) :: rest, p =>
    if s = p.space then (s, xs ++ [p]) :: rest
    else (s, xs) :: addToGroup rest p

/-- The `spaces` dict of `refresh_projects`, as an ordered association list. -/
def groupSpaces (ps : List Project) : List (String × List Project) :=
  ps.foldl addToGroup []

/-- `sorted(spaces.keys(), key=lambda item: item.lower())` together with the
groups they carry. -/
def sortedSpaceGroups (ps : List Project) : List (String × List Project) :=
  sortL (fun a b => strLe (lowerStr a.1) (lowerStr b.1)) (groupSpaces ps)

/-- The keys of `space_nodes` in insertion order. -/
def treeSpaceNames (ps : List Project) : List String :=
  (sortedSpaceGroups ps).map (·.1)

/-- The keys of `project_nodes` in insertion order: spaces sorted
case-insensitively, projects inside a space sorted case-insensitively by
name.  (A duplicate id keeps its first tree position in the Python dict;
first element and membership, the only uses, agree with this list.) -/
def treeProjectIds (ps : List Project) : List Int :=
  ((sortedSpaceGroups ps).map fun g =>
    (sortL (fun a b => strLe (nameKey a) (nameKey b)) g.2).map (·.id)).flatten

/-- `v in nodes` on an optional previous selection, keeping the value. -/
def optKeepMem {α : Type} [BEq α] (v : Option α) (xs : List α) : Option α :=
  match v with
  | some a => if xs.contains a then some a else none
  | none => none

/-- The selection-resolution tail of `DevHavenApp.refresh_projects`:
previous project if still present, else previous space if still present,
else first tree project, else first tree space, else no selection. -/
def refresh_selection (ps : List Project) (prevP : Option Int)
    (prevS : Option String) : Selection :=
  let pids := treeProjectIds ps
  let snames := treeSpaceNames ps
  match optKeepMem prevP pids with
  | some p => .projSel p
  | none =>
    match optKeepMem prevS snames with
    | some s => .spaceSel s
    | none =>
      match pids with
      | p :: _ => .projSel p
      | [] =>
        match snames with
        | s :: _ => .spaceSel s
        | [] => .noSel

/-! ### presentation/terminal.py — keystroke translation -/

/-- `chr(ord(key.lower()) - 96)` guarded by `len(key) == 1 and
key.isalpha()` (alphabetic test modelled on the ASCII range). -/
def ctrlLetterChar (k : String) : Option String :=
  match k.data with
  | [c] => if c.isAlpha then some ⟨[Char.ofNat (c.toLower.toNat - 96)]⟩ else none
  | _ => none

/-- `ProjectTerminal.on_key`: the payload forwarded to the shell process
for one key event, or `none` when nothing is forwarded.  `ctrl_keys` is the
widget's control-key table, `running` whether `self.emulator` is set,
`character` the event's literal character (`None` for special keys). -/
def on_key (ctrl_keys : String → Option String) (running : Bool) (key : String)
    (character : Option String) : Option String :=
  if !running then none
  else if key = "ctrl+f1" then none
  else
    let char0 := ctrl_keys key
    let char1 :=
      match char0 with
      | some c => some c
      | none =>
        if leadsCL "ctrl+".data key.data then ctrlLetterChar ⟨key.data.drop 5⟩
        else none
    let char2 :=
      match char1 with
      | some c => some c
      | none => character
    match char2 with
    | some c => if c ≠ "" then some c else none
    | none => none

/-! ### Auxiliary definitions used by the statements -/

/-- Arguments of one `create_project` call. -/
structure CreateArgs where
  name : String
  path : String
  space : String
  tags : List String
  now : String

/-- A sequence of `create_project` calls. -/
def createMany (doc : PyVal) : List CreateArgs → PyVal
  | [] => doc
  | a :: rest => createMany (create_project doc a.name a.path a.space a.tags a.now) rest

/-- The ids assigned by a sequence of `create_project` calls (each call
assigns the loaded `next_project_id`). -/
def assignedIds (doc : PyVal) : List CreateArgs → List Int
  | [] => []
  | a :: rest =>
    nextIdOf (load_state doc) ::
      assignedIds (create_project doc a.name a.path a.space a.tags a.now) rest

/-- The document the caller is left with after `import_projects`: on the
`FileNotFoundError` branch the function raises before touching the
repository, so the persisted document is the unchanged input. -/
def importDocAfter (parent : ParentDir) (doc : PyVal) (space : String)
    (tags : List String) (now : String) : PyVal :=
  match import_projects parent doc space tags now with
  | .error _ => doc
  | .ok (_, d') => d'

/-- The `path` field of a raw record (as a string), used to speak about the
records created during an import run. -/
def itemPathStr (v : PyVal) : String :=
  match dictGet v "path" with
  | .pstr s => s
  | _ => ""

/-- Modelled from the spec's words for the C3 filter ("substring match
against the concatenation of name, path, space, and comma-joined tags"):
the claimed haystack, to be compared with the source's per-field test. -/
def specConcatHaystack (p : Project) : String :=
  lowerStr (p.name ++ p.path ++ p.space ++ joinWith "," p.tags)

/-! ### Concrete documents used by witnesses and counterexamples -/

/-- The freshly-seeded default document. -/
def exDocEmpty : PyVal :=
  .pdict [("open_command", .pstr ""), ("projects", .plist []),
          ("next_project_id", .pint 1)]

/-- A document whose stored `next_project_id` (1) is a valid positive int
but does not exceed the existing project id 5. -/
def docStaleNext : PyVal :=
  .pdict [("open_command", .pstr ""),
          ("projects", .plist [.pdict [("id", .pint 5), ("name", .pstr "a"),
                                       ("path", .pstr "/a")]]),
          ("next_project_id", .pint 1)]

/-- A document whose stored `next_project_id` is the non-numeric string
"x" while a record with id 5 exists: load recomputes it to 6. -/
def docBadNext : PyVal :=
  .pdict [("open_command", .pstr ""),
          ("projects", .plist [.pdict [("id", .pint 5), ("name", .pstr "a"),
                                       ("path", .pstr "/a")]]),
          ("next_project_id", .pstr "x")]

/-- A document with one project whose name is "ab" and path is "cd". -/
def docCrossField : PyVal :=
  .pdict [("open_command", .pstr ""),
          ("projects", .plist [.pdict [("id", .pint 1), ("name", .pstr "ab"),
                                       ("path", .pstr "cd")]]),
          ("next_project_id", .pint 2)]

/-- Two projects: id 1 ("z", space "bb", opened) sorts first in the catalog
list; id 2 ("a", space "aa", never opened) comes first in tree order. -/
def docTwoSpaces : PyVal :=
  .pdict [("open_command", .pstr ""),
          ("projects", .plist [
            .pdict [("id", .pint 1), ("name", .pstr "z"), ("space", .pstr "bb"),
                    ("path", .pstr "/z"),
                    ("last_opened_at", .pstr "2024-01-01T00:00:00+00:00")],
            .pdict [("id", .pint 2), ("name", .pstr "a"), ("space", .pstr "aa"),
                    ("path", .pstr "/a")]]),
          ("next_project_id", .pint 3)]

/-- Two valid records sharing id 7, then an unrelated record with id 9. -/
def docDupIds : PyVal :=
  .pdict [("open_command", .pstr ""),
          ("projects", .plist [
            .pdict [("id", .pint 7), ("name", .pstr "first"), ("path", .pstr "/f")],
            .pdict [("id", .pint 7), ("name", .pstr "second"), ("path", .pstr "/s")],
            .pdict [("id", .pint 9), ("name", .pstr "other"), ("path", .pstr "/o")]]),
          ("next_project_id", .pint 10)]

/-- A parent directory with a hidden child, a cataloged child and a new
child (the import scenario of the spec). -/
def parentWork : ParentDir :=
  ParentDir.mk true true "work"
    [DirEntry.mk ".git" true "/work/.git", DirEntry.mk "api" true "/work/api",
     DirEntry.mk "web" true "/work/web"]

/-- A catalog that already contains `/work/api`. -/
def docWorkApi : PyVal :=
  .pdict [("open_command", .pstr ""),
          ("projects", .plist [.pdict [("id", .pint 1), ("name", .pstr "api"),
                                       ("path", .pstr "/work/api")]]),
          ("next_project_id", .pint 2)]

/-- A parent directory that does not exist. -/
def parentMissing : ParentDir := ParentDir.mk false true "w" []

/-! ## Lemmas about the embedding -/

theorem findEntry_setEntry_same (es : List (String × PyVal)) (k : String) (v : PyVal) :
    findEntry (setEntry es k v) k = some v := by
  induction es with
  | nil => simp [setEntry, findEntry]
  | cons e rest ih =>
    obtain ⟨k', v'⟩ := e
    by_cases h : k' = k
    · simp [setEntry, h, findEntry]
    · simp [setEntry, h, findEntry, ih]

theorem findEntry_setEntry_ne (es : List (String × PyVal)) (k k' : String) (v : PyVal)
    (h : k' ≠ k) : findEntry (setEntry es k v) k' = findEntry es k' := by
  induction es with
  | nil => simp [setEntry, findEntry, Ne.symm h]
  | cons e rest ih =>
    obtain ⟨k₀, v₀⟩ := e
    by_cases h0 : k₀ = k
    · subst h0
      simp [setEntry, findEntry, Ne.symm h, h]
    · by_cases h1 : k₀ = k'
      · subst h1
        simp [setEntry, h0, findEntry]
      · simp [setEntry, h0, findEntry, h1, ih]

theorem dictGet_dictSet_same (d : PyVal) (k : String) (v : PyVal) :
    dictGet (dictSet d k v) k = v := by
  cases d <;> simp [dictSet, dictGet, findEntry_setEntry_same, findEntry]

theorem dictGet_dictSet_ne (d : PyVal) (k k' : String) (v : PyVal) (h : k' ≠ k) :
    dictGet (dictSet d k v) k' = dictGet d k' := by
  cases d <;>
    simp [dictSet, dictGet, findEntry_setEntry_ne _ _ _ _ h, findEntry, Ne.symm h]

theorem projectsOf_load_state (doc : PyVal) :
    projectsOf (load_state doc) = projectsOf doc := by
  unfold load_state projectsOf
  cases hv : dictGet doc "projects" <;>
    simp [dictGet_dictSet_ne _ _ _ _ (by decide : ("projects" : String) ≠ "next_project_id"),
          dictGet_dictSet_same, hv]

theorem nextIdOf_load_state (doc : PyVal) :
    nextIdOf (load_state doc) =
      (match dictGet doc "next_project_id" with
       | .pint n => if n < 1 then next_project_id_of (projectsOf doc) else n
       | _ => next_project_id_of (projectsOf doc)) := by
  unfold load_state nextIdOf
  rw [dictGet_dictSet_same]
  have hne : ("next_project_id" : String) ≠ "projects" := by decide
  rw [dictGet_dictSet_ne _ _ _ _ hne]
  have hp : projectsOf (dictSet doc "projects"
      (match dictGet doc "projects" with
       | .plist xs => PyVal.plist xs
       | _ => PyVal.plist [])) = projectsOf doc := by
    unfold projectsOf
    cases hv : dictGet doc "projects" <;> simp [dictGet_dictSet_same, hv]
  rw [hp]

theorem one_le_next_project_id_of (ps : List PyVal) :
    1 ≤ next_project_id_of ps := by
  simp only [next_project_id_of]
  split <;> omega

theorem one_le_nextIdOf_load_state (doc : PyVal) :
    1 ≤ nextIdOf (load_state doc) := by
  rw [nextIdOf_load_state]
  split
  · split
    · exact one_le_next_project_id_of _
    · omega
  · exact one_le_next_project_id_of _

/-! ### The stable sort -/

theorem mem_sIns {α : Type} (le : α → α → Bool) (x a : α) (l : List α) :
    a ∈ sIns le x l ↔ a = x ∨ a ∈ l := by
  induction l with
  | nil => simp [sIns]
  | cons y ys ih =>
    by_cases h : le x y = true
    · simp [sIns, h]
    · simp [sIns, h, ih]
      tauto

theorem sIns_perm {α : Type} (le : α → α → Bool) (x : α) (l : List α) :
    List.Perm (sIns le x l) (x :: l) := by
  induction l with
  | nil => simp [sIns]
  | cons y ys ih =>
    by_cases h : le x y = true
    · simp [sIns, h]
    · simp only [sIns]
      rw [if_neg h]
      exact (ih.cons y).trans (List.Perm.swap x y ys)

theorem sortL_perm {α : Type} (le : α → α → Bool) (l : List α) :
    List.Perm (sortL le l) l := by
  induction l with
  | nil => simp [sortL]
  | cons x xs ih => exact (sIns_perm le x (sortL le xs)).trans (ih.cons x)

theorem mem_sortL {α : Type} (le : α → α → Bool) (a : α) (l : List α) :
    a ∈ sortL le l ↔ a ∈ l := (sortL_perm le l).mem_iff

/-- Inserting into a list sorted for the lexicographic composite relation
keeps it sorted, provided the element is `le1`-below everything present
(it stems from an earlier position of the `le1`-sorted input). -/
theorem pairwise_sIns {α : Type} (le1 le2 : α → α → Bool)
    (trans2 : ∀ a b c, le2 a b = true → le2 b c = true → le2 a c = true)
    (total2 : ∀ a b, le2 a b = true ∨ le2 b a = true)
    (x : α) (l : List α)
    (hl : l.Pairwise (fun a b => le2 a b = true ∧ (le2 b a = true → le1 a b = true)))
    (hx : ∀ y ∈ l, le1 x y = true) :
    (sIns le2 x l).Pairwise
      (fun a b => le2 a b = true ∧ (le2 b a = true → le1 a b = true)) := by
  induction l with
  | nil => simp [sIns]
  | cons y ys ih =>
    rw [List.pairwise_cons] at hl
    obtain ⟨hy, hys⟩ := hl
    by_cases h : le2 x y = true
    · simp only [sIns]
      rw [if_pos h, List.pairwise_cons]
      refine ⟨?_, List.pairwise_cons.mpr ⟨hy, hys⟩⟩
      intro z hz
      rcases List.mem_cons.mp hz with hz | hz
      · subst hz
        exact ⟨h, fun _ => hx z (List.mem_cons_self _ _)⟩
      · exact ⟨trans2 x y z h (hy z hz).1, fun _ => hx z (List.mem_cons_of_mem _ hz)⟩
    · simp only [sIns]
      rw [if_neg h, List.pairwise_cons]
      constructor
      · intro z hz
        rcases (mem_sIns le2 x z ys).mp hz with hz | hz
        · rw [hz]
          refine ⟨?_, fun hxy => absurd hxy h⟩
          rcases total2 x y with h' | h'
          · exact absurd h' h
          · exact h'
        · exact hy z hz
      · exact ih hys (fun z hz => hx z (List.mem_cons_of_mem _ hz))

/-- Stably sorting a `le1`-sorted list by `le2` sorts it for the
lexicographic composite: primarily by `le2`, with `le2`-ties still in
`le1` order. -/
theorem pairwise_sortL_lex {α : Type} (le1 le2 : α → α → Bool)
    (trans2 : ∀ a b c, le2 a b = true → le2 b c = true → le2 a c = true)
    (total2 : ∀ a b, le2 a b = true ∨ le2 b a = true)
    (l : List α) (hl : l.Pairwise (fun a b => le1 a b = true)) :
    (sortL le2 l).Pairwise
      (fun a b => le2 a b = true ∧ (le2 b a = true → le1 a b = true)) := by
  induction l with
  | nil => simp [sortL]
  | cons a xs ih =>
    rw [List.pairwise_cons] at hl
    obtain ⟨ha, hxs⟩ := hl
    exact pairwise_sIns le1 le2 trans2 total2 a (sortL le2 xs) (ih hxs)
      (fun y hy => ha y ((mem_sortL le2 y xs).mp hy))

theorem pairwise_tt {α : Type} (l : List α) :
    l.Pairwise (fun _ _ => (true : Bool) = true) := by
  induction l with
  | nil => exact List.Pairwise.nil
  | cons x xs ih => exact List.pairwise_cons.mpr ⟨fun _ _ => rfl, ih⟩

theorem sortL_sorted {α : Type} (le : α → α → Bool)
    (trans : ∀ a b c, le a b = true → le b c = true → le a c = true)
    (total : ∀ a b, le a b = true ∨ le b a = true)
    (l : List α) : (sortL le l).Pairwise (fun a b => le a b = true) :=
  (pairwise_sortL_lex (fun _ _ => true) le trans total l (pairwise_tt l)).imp
    (fun h => h.1)

/-! ### Code-point string order -/

theorem clLe_refl : ∀ x : List Char, clLe x x = true := by
  intro x
  induction x with
  | nil => rfl
  | cons a as ih => simp [clLe, ih]

theorem clLe_total : ∀ x y : List Char, clLe x y = true ∨ clLe y x = true := by
  intro x
  induction x with
  | nil => intro y; left; rfl
  | cons a as ih =>
    intro y
    cases y with
    | nil => right; rfl
    | cons b bs =>
      simp only [clLe]
      rcases Nat.lt_trichotomy a.toNat b.toNat with h | h | h
      · left; simp [h]
      · have h1 : ¬ a.toNat < b.toNat := by omega
        have h2 : ¬ b.toNat < a.toNat := by omega
        rcases ih bs with h' | h' <;> simp [h1, h2, h']
      · right; simp [h]

theorem clLe_trans : ∀ x y z : List Char,
    clLe x y = true → clLe y z = true → clLe x z = true := by
  intro x
  induction x with
  | nil => intro y z _ _; rfl
  | cons a as ih =>
    intro y z hxy hyz
    cases y with
    | nil => simp [clLe] at hxy
    | cons b bs =>
      cases z with
      | nil => simp [clLe] at hyz
      | cons c cs =>
        simp only [clLe] at hxy hyz ⊢
        rcases Nat.lt_trichotomy a.toNat c.toNat with h | h | h
        · rw [if_pos h]
        · have h1 : ¬ a.toNat < c.toNat := by omega
          have h2 : ¬ c.toNat < a.toNat := by omega
          rw [if_neg h1, if_neg h2]
          by_cases hab : a.toNat < b.toNat
          · by_cases hbc : b.toNat < c.toNat
            · omega
            · have hcb : c.toNat < b.toNat := by omega
              rw [if_neg hbc, if_pos hcb] at hyz
              exact absurd hyz (by simp)
          · by_cases hba : b.toNat < a.toNat
            · rw [if_neg hab, if_pos hba] at hxy
              exact absurd hxy (by simp)
            · have hbc : ¬ b.toNat < c.toNat := by omega
              have hcb : ¬ c.toNat < b.toNat := by omega
              rw [if_neg hab, if_neg hba] at hxy
              rw [if_neg hbc, if_neg hcb] at hyz
              exact ih bs cs hxy hyz
        · exfalso
          by_cases hab : a.toNat < b.toNat
          · by_cases hbc : b.toNat < c.toNat
            · omega
            · have hcb : c.toNat < b.toNat := by omega
              rw [if_neg hbc, if_pos hcb] at hyz
              exact absurd hyz (by simp)
          · by_cases hba : b.toNat < a.toNat
            · rw [if_neg hab, if_pos hba] at hxy
              exact absurd hxy (by simp)
            · have hbc : ¬ b.toNat < c.toNat := by omega
              have hcb : c.toNat < b.toNat := by omega
              rw [if_neg hbc, if_pos hcb] at hyz
              exact absurd hyz (by simp)

theorem clLe_nil_right : ∀ x : List Char, clLe x [] = true → x = [] := by
  intro x h
  cases x with
  | nil => rfl
  | cons a as => simp [clLe] at h

theorem strLe_refl (s : String) : strLe s s = true := clLe_refl s.data

theorem strLe_total (s t : String) : strLe s t = true ∨ strLe t s = true :=
  clLe_total s.data t.data

theorem strLe_trans (s t u : String) (h1 : strLe s t = true) (h2 : strLe t u = true) :
    strLe s u = true := clLe_trans s.data t.data u.data h1 h2

theorem strLe_empty_right (s : String) (h : strLe s "" = true) : s = "" := by
  have hd : s.data = [] := clLe_nil_right s.data h
  obtain ⟨d⟩ := s
  have hd' : d = [] := hd
  subst hd'
  rfl

/-! ### Parsed records -/

theorem natDigitsB_ne_nil (fuel n : Nat) : natDigitsB fuel n ≠ [] := by
  cases fuel with
  | zero => simp [natDigitsB]
  | succ f =>
    simp only [natDigitsB]
    split
    · simp
    · simp

theorem intRepr_ne_empty (n : Int) : intRepr n ≠ "" := by
  cases n with
  | ofNat m =>
    intro h
    exact natDigitsB_ne_nil m m (congrArg String.data h)
  | negSucc m =>
    intro h
    have : '-' :: natDigits (m + 1) = ([] : List Char) := congrArg String.data h
    exact List.cons_ne_nil _ _ this

theorem pyTruthy_pyStr_ne_empty (v : PyVal) (h : pyTruthy v = true) :
    pyStr v ≠ "" := by
  cases v with
  | pnone => simp [pyTruthy] at h
  | pint n => exact intRepr_ne_empty n
  | pstr s => simpa [pyTruthy] using h
  | plist xs =>
    intro hc
    have : ("[" ++ (joinWith ", " (pyStrList xs) ++ "]")).data = "".data :=
      congrArg String.data (by simpa [pyStr, String.append_assoc] using hc)
    rw [String.data_append] at this
    simp at this
  | pdict es =>
    intro hc
    have : ("\x7b" ++ (joinWith ", " (pyStrEntries es) ++ "\x7d")).data = "".data :=
      congrArg String.data (by simpa [pyStr, String.append_assoc] using hc)
    rw [String.data_append] at this
    simp at this

theorem project_from_dict_some_elim (now : String) (item : PyVal) (p : Project)
    (h : project_from_dict now item = some p) :
    isDictB item = true ∧
    pyIntCoerce (dictGet item "id") = some p.id ∧
    p.last_opened_at = (if pyTruthy (dictGet item "last_opened_at") = true
      then some (pyStr (dictGet item "last_opened_at")) else none) := by
  unfold project_from_dict at h
  split at h
  · exact absurd h (by simp)
  · next hdict =>
    refine ⟨by revert hdict; cases item <;> simp [isDictB], ?_⟩
    split at h
    · exact absurd h (by simp)
    · dsimp only at h
      split at h
      · exact absurd h (by simp)
      · rw [Option.some_inj] at h
        subst h
        rename_i pid hco _
        exact ⟨hco, rfl⟩

theorem project_from_dict_last_ne_some_empty (now : String) (item : PyVal)
    (p : Project) (h : project_from_dict now item = some p) :
    p.last_opened_at ≠ some "" := by
  obtain ⟨-, -, hlast⟩ := project_from_dict_some_elim now item p h
  rw [hlast]
  split
  · next ht =>
    intro hc
    rw [Option.some_inj] at hc
    exact pyTruthy_pyStr_ne_empty _ ht hc
  · simp

theorem project_from_dict_id_eq (now : String) (item : PyVal) (p : Project)
    (h : project_from_dict now item = some p) :
    isDictB item = true ∧ project_idOf item = p.id := by
  obtain ⟨hdict, hco, -⟩ := project_from_dict_some_elim now item p h
  refine ⟨hdict, ?_⟩
  cases item with
  | pdict es =>
    cases hfind : findEntry es "id" with
    | none =>
      have hg : dictGet (.pdict es) "id" = PyVal.pnone := by simp [dictGet, hfind]
      rw [hg] at hco
      simp [pyIntCoerce] at hco
    | some v =>
      have hg : dictGet (.pdict es) "id" = v := by simp [dictGet, hfind]
      rw [hg] at hco
      simp [project_idOf, dictGetD, hfind, hco]
  | pnone => simp [isDictB] at hdict
  | pint n => simp [isDictB] at hdict
  | pstr str => simp [isDictB] at hdict
  | plist xs => simp [isDictB] at hdict

/-! ## Claims -/

/-- C7: `import_projects` raises the NotFound condition (`FileNotFoundError`)
if and only if the parent path does not exist or is not a directory, and on
that branch it raises before touching the repository, so no project is
created and the caller's document is unchanged. -/
theorem importProjects_notFound_iff (parent : ParentDir) (doc : PyVal)
    (space now : String) (tags : List String) :
    (import_projects parent doc space tags now = Except.error () ↔
      (parent.pexists = false ∨ parent.isDir = false)) ∧
    ((parent.pexists = false ∨ parent.isDir = false) →
      importDocAfter parent doc space tags now = doc) := by
  cases hpe : parent.pexists <;> cases hpd : parent.isDir
  · simp [import_projects, importDocAfter, hpe, hpd]
  · simp [import_projects, importDocAfter, hpe, hpd]
  · simp [import_projects, importDocAfter, hpe, hpd]
  · refine ⟨?_, by simp⟩
    simp only [import_projects, hpe, hpd, Bool.not_true, Bool.or_self]
    constructor
    · intro h
      rw [if_neg (by simp)] at h
      split at h <;> exact absurd h (by simp)
    · intro h
      simp at h

/-- C7 witness: a missing parent produces the error and leaves the default
document untouched. -/
theorem importProjects_notFound_iff_witness :
    import_projects parentMissing exDocEmpty "" [] "t" = Except.error () ∧
    importDocAfter parentMissing exDocEmpty "" [] "t" = exDocEmpty :=
  ⟨((importProjects_notFound_iff parentMissing exDocEmpty "" "t" []).1).mpr
      (by decide),
   ((importProjects_notFound_iff parentMissing exDocEmpty "" "t" []).2)
      (by decide)⟩

/-- C8: `update_project`, `delete_project` and `touch_opened` on an id that
is not present in the catalog return without error and without saving: the
persisted document is exactly (byte-for-byte) unchanged. -/
theorem missing_id_ops_no_save (doc : PyVal) (pid : Int)
    (name path space now : String) (tags : List String)
    (h : hasProjectId (projectsOf (load_state doc)) pid = false) :
    update_project doc pid name path space tags now = doc ∧
    delete_project doc pid = doc ∧
    touch_opened doc pid now = doc := by
  have h' : ∀ x ∈ projectsOf (load_state doc),
      isDictB x = true → ¬ project_idOf x = pid := by
    simpa [hasProjectId] using h
  have hall : ∀ item ∈ projectsOf (load_state doc),
      (isDictB item && project_idOf item = pid) = false := by
    intro item hmem
    by_cases hd : isDictB item
    · simp [hd, h' item hmem hd]
    · simp [hd]
  refine ⟨?_, ?_, ?_⟩
  · unfold update_project
    rw [if_neg (by simp [h])]
  · unfold delete_project
    rw [if_neg ?_]
    simp only [ne_eq, Decidable.not_not]
    congr 1
    apply List.filter_eq_self.mpr
    intro a ha
    simp only [Bool.not_eq_eq_eq_not, Bool.not_true]
    exact hall a ha
  · unfold touch_opened
    rw [if_neg (by simp [h])]

/-- C8 witness: id 99 is absent from a small catalog; all three operations
leave the document unchanged. -/
theorem missing_id_ops_no_save_witness :
    update_project docDupIds 99 "n" "/p" "s" [] "t" = docDupIds ∧
    delete_project docDupIds 99 = docDupIds ∧
    touch_opened docDupIds 99 "t" = docDupIds :=
  missing_id_ops_no_save docDupIds 99 "n" "/p" "s" "t" [] (by decide)

theorem le_foldMaxId (ps : List PyVal) (acc : Int) :
    acc ≤ ps.foldl
      (fun max_id item =>
        if isDictB item = true then
          (if project_idOf item > max_id then project_idOf item else max_id)
        else max_id) acc := by
  induction ps generalizing acc with
  | nil => simp
  | cons x xs ih =>
    simp only [List.foldl_cons]
    refine le_trans ?_ (ih _)
    split
    · split <;> omega
    · omega

theorem projIdOf_le_foldMaxId (ps : List PyVal) (acc : Int) (item : PyVal)
    (hmem : item ∈ ps) (hd : isDictB item = true) :
    project_idOf item ≤ ps.foldl
      (fun max_id it =>
        if isDictB it = true then
          (if project_idOf it > max_id then project_idOf it else max_id)
        else max_id) acc := by
  induction ps generalizing acc with
  | nil => simp at hmem
  | cons x xs ih =>
    simp only [List.foldl_cons]
    rcases List.mem_cons.mp hmem with h | h
    · subst h
      refine le_trans ?_ (le_foldMaxId xs _)
      rw [if_pos hd]
      split <;> omega
    · exact ih _ h

theorem projIdOf_lt_next_project_id_of (ps : List PyVal) (item : PyVal)
    (hmem : item ∈ ps) (hd : isDictB item = true) :
    project_idOf item < next_project_id_of ps := by
  have hle := projIdOf_le_foldMaxId ps 0 item hmem hd
  simp only [next_project_id_of]
  split <;> omega

/-- C2 counterexample: in `docStaleNext` the stored `next_project_id` is the
integer 1, a record with id 5 exists and parses, yet `_load_state` keeps the
stale 1 — it does not recompute a value greater than the existing id 5. -/
theorem load_state_keeps_stale_next_id :
    nextIdOf (load_state docStaleNext) = 1 ∧
    (get_project docStaleNext 5 "t").map (·.id) = some 5 ∧
    ¬ nextIdOf (load_state docStaleNext) > 5 := by
  refine ⟨by decide, by decide, by decide⟩

/-- C2 (amended): on load, `next_project_id` is recomputed as one more than
the largest existing raw id exactly when the stored value is missing,
non-numeric or an integer below 1 (a stored integer that is ≥ 1 but not
greater than some existing id is kept as-is); after any load the value is
at least 1, and whenever recomputation occurs the result strictly exceeds
every existing project id (raw records and parsed projects alike). -/
theorem load_state_next_id_amended (doc : PyVal) (now : String) :
    1 ≤ nextIdOf (load_state doc) ∧
    (∀ n, dictGet doc "next_project_id" = PyVal.pint n → 1 ≤ n →
      nextIdOf (load_state doc) = n) ∧
    ((∀ n, dictGet doc "next_project_id" = PyVal.pint n → n < 1) →
      nextIdOf (load_state doc) = next_project_id_of (projectsOf doc) ∧
      (∀ item ∈ projectsOf (load_state doc), isDictB item = true →
        project_idOf item < nextIdOf (load_state doc)) ∧
      (∀ item ∈ projectsOf (load_state doc), ∀ p,
        project_from_dict now item = some p →
          p.id < nextIdOf (load_state doc))) := by
  refine ⟨one_le_nextIdOf_load_state doc, ?_, ?_⟩
  · intro n hn h1
    rw [nextIdOf_load_state, hn]
    simp only []
    rw [if_neg (by omega)]
  · intro hbad
    have heq : nextIdOf (load_state doc) = next_project_id_of (projectsOf doc) := by
      rw [nextIdOf_load_state]
      cases hv : dictGet doc "next_project_id" with
      | pint n =>
        have := hbad n hv
        simp only []
        rw [if_pos this]
      | pnone => rfl
      | pstr s => rfl
      | plist xs => rfl
      | pdict es => rfl
    refine ⟨heq, ?_, ?_⟩
    · intro item hmem hd
      rw [heq]
      rw [projectsOf_load_state] at hmem
      exact projIdOf_lt_next_project_id_of _ item hmem hd
    · intro item hmem p hp
      obtain ⟨hd, hid⟩ := project_from_dict_id_eq now item p hp
      rw [← hid, heq]
      rw [projectsOf_load_state] at hmem
      exact projIdOf_lt_next_project_id_of _ item hmem hd

/-- C2 (amended) witness: the stale-but-positive value 1 is kept; the
non-numeric value "x" triggers recomputation to 6 = max id 5 + 1. -/
theorem load_state_next_id_amended_witness :
    nextIdOf (load_state docStaleNext) = 1 ∧
    nextIdOf (load_state docBadNext) = 6 := by
  constructor
  · exact (load_state_next_id_amended docStaleNext "t").2.1 1 rfl (by decide)
  · refine Eq.trans
      (((load_state_next_id_amended docBadNext "t").2.2 ?_).1) (by decide)
    intro n hn
    exact PyVal.noConfusion hn

theorem leadsCL_append_self (p rest : List Char) :
    leadsCL p (p ++ rest) = true := by
  induction p with
  | nil => rfl
  | cons a as ih => simp [leadsCL, ih]

theorem char_isLower_of (c : Char) (h1 : 97 ≤ c.toNat) (h2 : c.toNat ≤ 122) :
    c.isLower = true := by
  have hv1 : (97 : UInt32) ≤ c.val := by
    rw [UInt32.le_def, BitVec.le_def]
    have he : ((97 : UInt32)).toBitVec.toNat = 97 := by decide
    rw [he]
    exact h1
  have hv2 : c.val ≤ (122 : UInt32) := by
    rw [UInt32.le_def, BitVec.le_def]
    have he : ((122 : UInt32)).toBitVec.toNat = 122 := by decide
    rw [he]
    exact h2
  simp [Char.isLower, hv1, hv2]

theorem char_toLower_of_lower (c : Char) (h1 : 97 ≤ c.toNat) :
    c.toLower = c := by
  simp only [Char.toLower]
  rw [if_neg (by omega)]

/-- C9: keystrokes on a running terminal session: the reserved release-focus
combination ctrl+f1 is intercepted and never forwarded; a ctrl+letter key
that is not in the control-key table is translated to the single character
whose code point is the letter's code point − code point of 'a' + 1; any
other key not covered by the table forwards the event's literal character
unchanged. -/
theorem on_key_translation (ctrl_keys : String → Option String)
    (character : Option String) (key : String) (c : Char) (ch : String) :
    on_key ctrl_keys true "ctrl+f1" character = none ∧
    (ctrl_keys ("ctrl+" ++ (⟨[c]⟩ : String)) = none →
      97 ≤ c.toNat → c.toNat ≤ 122 →
      on_key ctrl_keys true ("ctrl+" ++ (⟨[c]⟩ : String)) character =
        some ⟨[Char.ofNat (c.toNat - 'a'.toNat + 1)]⟩) ∧
    (key ≠ "ctrl+f1" → ctrl_keys key = none →
      (leadsCL "ctrl+".data key.data = true →
        ctrlLetterChar ⟨key.data.drop 5⟩ = none) →
      character = some ch → ch ≠ "" →
      on_key ctrl_keys true key character = some ch) := by
  refine ⟨by simp [on_key], ?_, ?_⟩
  · intro hct h1 h2
    have hdata : ("ctrl+" ++ (⟨[c]⟩ : String)).data = "ctrl+".data ++ [c] :=
      String.data_append _ _
    have hkey : ("ctrl+" ++ (⟨[c]⟩ : String)) ≠ "ctrl+f1" := by
      intro hc
      have hd := congrArg String.data hc
      rw [hdata] at hd
      rw [show "ctrl+".data = ['c', 't', 'r', 'l', '+'] from by decide,
          show "ctrl+f1".data = ['c', 't', 'r', 'l', '+', 'f', '1'] from by decide]
        at hd
      simp at hd
    unfold on_key
    rw [if_neg (by simp), if_neg hkey, hct]
    simp only []
    rw [hdata]
    rw [leadsCL_append_self "ctrl+".data [c]]
    rw [if_pos rfl]
    rw [show (5 : Nat) = ("ctrl+".data).length from by decide]
    rw [List.drop_left]
    have halpha : c.isAlpha = true := by
      simp [Char.isAlpha, char_isLower_of c h1 h2]
    unfold ctrlLetterChar
    dsimp only
    rw [if_pos halpha, char_toLower_of_lower c h1]
    have hn : c.toNat - 96 = c.toNat - 'a'.toNat + 1 := by
      have ha : ('a').toNat = 97 := by decide
      omega
    rw [hn]
    dsimp only
    rw [if_pos ?hne]
    case hne =>
      intro hX
      exact List.noConfusion (congrArg String.data hX)
  · intro hne hct hfree hch hchne
    unfold on_key
    rw [if_neg (by simp), if_neg hne, hct]
    simp only []
    by_cases hl : leadsCL "ctrl+".data key.data = true
    · rw [if_pos hl, hfree hl, hch]
      simp [hchne]
    · rw [if_neg hl, hch]
      simp [hchne]

theorem projectsOf_dictSet_projects (d : PyVal) (xs : List PyVal) :
    projectsOf (dictSet d "projects" (.plist xs)) = xs := by
  unfold projectsOf
  rw [dictGet_dictSet_same]

theorem projectsOf_dictSet_other (d : PyVal) (k : String) (v : PyVal)
    (h : k ≠ "projects") : projectsOf (dictSet d k v) = projectsOf d := by
  unfold projectsOf
  rw [dictGet_dictSet_ne _ _ _ _ (Ne.symm h)]

theorem projectsOf_create (doc : PyVal) (name path space now : String)
    (tags : List String) :
    projectsOf (create_project doc name path space tags now) =
      projectsOf doc ++
        [mkProjectItem (nextIdOf (load_state doc)) name path space tags now] := by
  unfold create_project
  simp only []
  rw [projectsOf_dictSet_projects,
      projectsOf_dictSet_other _ _ _ (by decide), projectsOf_load_state]

theorem dictGet_create_next (doc : PyVal) (name path space now : String)
    (tags : List String) :
    dictGet (create_project doc name path space tags now) "next_project_id" =
      .pint (nextIdOf (load_state doc) + 1) := by
  unfold create_project
  simp only []
  rw [dictGet_dictSet_ne _ _ _ _ (by decide), dictGet_dictSet_same]

theorem projectsOf_load_state_create (doc : PyVal) (name path space now : String)
    (tags : List String) :
    projectsOf (load_state (create_project doc name path space tags now)) =
      projectsOf doc ++
        [mkProjectItem (nextIdOf (load_state doc)) name path space tags now] := by
  rw [projectsOf_load_state, projectsOf_create]

theorem nextIdOf_load_state_create (doc : PyVal) (name path space now : String)
    (tags : List String) :
    nextIdOf (load_state (create_project doc name path space tags now)) =
      nextIdOf (load_state doc) + 1 := by
  rw [nextIdOf_load_state, dictGet_create_next]
  dsimp only
  rw [if_neg ?_]
  have := one_le_nextIdOf_load_state doc
  omega

theorem le_assignedIds (doc : PyVal) (args : List CreateArgs) :
    ∀ i ∈ assignedIds doc args, nextIdOf (load_state doc) ≤ i := by
  induction args generalizing doc with
  | nil => simp [assignedIds]
  | cons a rest ih =>
    intro i hi
    rcases List.mem_cons.mp hi with h | h
    · exact le_of_eq h.symm
    · have hle := ih (create_project doc a.name a.path a.space a.tags a.now) i h
      rw [nextIdOf_load_state_create] at hle
      omega

theorem nextIdOf_le_createMany (doc : PyVal) (args : List CreateArgs) :
    nextIdOf (load_state doc) ≤ nextIdOf (load_state (createMany doc args)) := by
  induction args generalizing doc with
  | nil => simp [createMany]
  | cons a rest ih =>
    simp only [createMany]
    have h := ih (create_project doc a.name a.path a.space a.tags a.now)
    rw [nextIdOf_load_state_create] at h
    omega

/-- C6: for any loaded catalog state and any sequence of `create_project`
calls, the assigned ids are strictly increasing, and after the sequence
`next_project_id` strictly exceeds every id assigned in the sequence (hence,
applied to every prefix, after each creation it exceeds the maximum id
assigned so far). -/
theorem create_sequence_ids (doc : PyVal) (args : List CreateArgs) :
    List.Pairwise (· < ·) (assignedIds doc args) ∧
    (∀ i ∈ assignedIds doc args,
      i < nextIdOf (load_state (createMany doc args))) := by
  constructor
  · induction args generalizing doc with
    | nil => exact List.Pairwise.nil
    | cons a rest ih =>
      refine List.pairwise_cons.mpr ⟨?_, ih _⟩
      intro i hi
      have h1 := le_assignedIds _ _ i hi
      rw [nextIdOf_load_state_create] at h1
      omega
  · induction args generalizing doc with
    | nil => simp [assignedIds]
    | cons a rest ih =>
      intro i hi
      rcases List.mem_cons.mp hi with h | h
      · subst h
        have h2 := nextIdOf_le_createMany
          (create_project doc a.name a.path a.space a.tags a.now) rest
        rw [nextIdOf_load_state_create] at h2
        simp only [createMany]
        omega
      · simp only [createMany]
        exact ih _ i h

/-- C6 witness: from the default document, two creations assign ids 1 and 2
(1 < 2) and the final `next_project_id` (3) exceeds both. -/
theorem create_sequence_ids_witness :
    (1 : Int) ∈ assignedIds exDocEmpty
      [CreateArgs.mk "a" "/a" "" [] "t", CreateArgs.mk "b" "/b" "" [] "t"] ∧
    (1 : Int) < nextIdOf (load_state (createMany exDocEmpty
      [CreateArgs.mk "a" "/a" "" [] "t", CreateArgs.mk "b" "/b" "" [] "t"])) :=
  ⟨by decide,
   (create_sequence_ids exDocEmpty
      [CreateArgs.mk "a" "/a" "" [] "t", CreateArgs.mk "b" "/b" "" [] "t"]).2
     1 (by decide)⟩

theorem string_data_eq_nil (s : String) (h : s.data = []) : s = "" := by
  obtain ⟨d⟩ := s
  have hd : d = [] := h
  subst hd
  rfl

theorem lowerStr_ne_empty (s : String) (h : s ≠ "") : lowerStr s ≠ "" := by
  intro hc
  apply h
  apply string_data_eq_nil
  have hd : s.data.map Char.toLower = [] := congrArg String.data hc
  exact List.map_eq_nil_iff.mp hd

/-- C3 counterexample: the record named "ab" with path "cd" is not returned
for the query "bc" although the lowercased query is a substring of the
concatenation of its fields; and the all-whitespace query " " returns it
although " " is not a substring of that concatenation — the code filters
per-field after stripping the query, not over the concatenation. -/
theorem list_projects_filter_counterexample :
    list_projects docCrossField "bc" "t" = [] ∧
    ∃ p, (projectsOf (load_state docCrossField)).filterMap
            (project_from_dict "t") = [p] ∧
      subStr (lowerStr "bc") (specConcatHaystack p) = true ∧
      subStr (lowerStr " ") (specConcatHaystack p) = false ∧
      list_projects docCrossField " " "t" = [p] := by
  refine ⟨by decide,
    ⟨Project.mk 1 "ab" "cd" DEFAULT_SPACE [] "t" "t" none,
     by decide, by decide, by decide, by decide⟩⟩

/-- C3 (amended): for every query that is non-empty after stripping,
`list_projects` returns exactly those valid projects for which the stripped
lowercased query is a substring of at least one of the lowercased name,
path, space, or comma-joined tags. -/
theorem list_projects_filter_amended (doc : PyVal) (query now : String)
    (h : pyStrip query ≠ "") (p : Project) :
    p ∈ list_projects doc query now ↔
      (p ∈ (projectsOf (load_state doc)).filterMap (project_from_dict now) ∧
       matches_query p (lowerStr (pyStrip query)) = true) := by
  unfold list_projects
  simp only []
  rw [if_pos (lowerStr_ne_empty _ h)]
  rw [mem_sortL, mem_sortL, List.mem_filter]

/-- C3 (amended) witness: the query "ab" returns the "ab"/"cd" project,
which is valid and matches on its name. -/
theorem list_projects_filter_amended_witness :
    Project.mk 1 "ab" "cd" DEFAULT_SPACE [] "t" "t" none ∈
        list_projects docCrossField "ab" "t" ↔
      (Project.mk 1 "ab" "cd" DEFAULT_SPACE [] "t" "t" none ∈
          (projectsOf (load_state docCrossField)).filterMap
            (project_from_dict "t") ∧
       matches_query (Project.mk 1 "ab" "cd" DEFAULT_SPACE [] "t" "t" none)
          (lowerStr (pyStrip "ab")) = true) :=
  list_projects_filter_amended docCrossField "ab" "t" (by decide) _

/-- C1: with an empty query, the returned sequence is ordered with
`last_opened_at` descending as the primary key (projects without a
`last_opened_at` after all opened ones) and case-insensitive name ascending
as the stable secondary key within equal `last_opened_at`. -/
theorem list_projects_sort_law (doc : PyVal) (now : String) :
    (list_projects doc "" now).Pairwise (fun a b =>
      strLe (lastKey b) (lastKey a) = true ∧
      (a.last_opened_at = b.last_opened_at →
        strLe (nameKey a) (nameKey b) = true) ∧
      (a.last_opened_at = none → b.last_opened_at = none)) := by
  unfold list_projects
  simp only []
  rw [if_neg (by decide)]
  have hsorted := sortL_sorted (fun a b : Project => strLe (nameKey a) (nameKey b))
    (fun a b c => strLe_trans _ _ _) (fun a b => strLe_total _ _)
    ((projectsOf (load_state doc)).filterMap (project_from_dict now))
  have hlex := pairwise_sortL_lex
    (fun a b : Project => strLe (nameKey a) (nameKey b))
    (fun a b : Project => strLe (lastKey b) (lastKey a))
    (fun a b c hab hbc => strLe_trans _ _ _ hbc hab)
    (fun a b => (strLe_total (lastKey b) (lastKey a)).symm.symm.imp id id)
    _ hsorted
  refine hlex.imp_of_mem ?_
  intro a b ha hb hR
  obtain ⟨h2, h21⟩ := hR
  have h2' : strLe (lastKey b) (lastKey a) = true := h2
  refine ⟨h2', ?_, ?_⟩
  · intro heq
    apply h21
    show strLe (lastKey a) (lastKey b) = true
    have hk : lastKey a = lastKey b := by
      unfold lastKey
      rw [heq]
    rw [hk]
    exact strLe_refl _
  · intro hnone
    have ha' : lastKey a = "" := by
      unfold lastKey
      rw [hnone]
      rfl
    rw [ha'] at h2'
    have hb' : lastKey b = "" := strLe_empty_right _ h2' 
    cases hbl : b.last_opened_at with
    | none => rfl
    | some s =>
      have hs : s = "" := by
        simp only [lastKey, hbl, Option.getD_some] at hb'
        exact hb'
      have hbmem : b ∈ (projectsOf (load_state doc)).filterMap
          (project_from_dict now) :=
        (mem_sortL _ _ _).mp ((mem_sortL _ _ _).mp hb)
      obtain ⟨item, hmem, hitem⟩ := List.mem_filterMap.mp hbmem
      exact absurd (hbl.trans (by rw [hs]))
        (project_from_dict_last_ne_some_empty now item b hitem)

theorem projectsOf_load_delete (doc : PyVal) (v : Int) :
    projectsOf (load_state (delete_project doc v)) =
      (projectsOf (load_state doc)).filter
        (fun item => !(isDictB item && project_idOf item = v)) := by
  unfold delete_project
  simp only []
  split
  · rw [projectsOf_load_state, projectsOf_dictSet_projects]
  · next hlen =>
    simp only [ne_eq, Decidable.not_not] at hlen
    exact ((List.filter_sublist _).eq_of_length hlen).symm

theorem updateFirstProject_append (v : Int) (f : PyVal → PyVal)
    (pre post : List PyVal) (item : PyVal)
    (hpre : ∀ x ∈ pre, ¬(isDictB x = true ∧ project_idOf x = v))
    (hd : isDictB item = true) (hid : project_idOf item = v) :
    updateFirstProject v f (pre ++ item :: post) = pre ++ f item :: post := by
  induction pre with
  | nil =>
    simp only [List.nil_append, updateFirstProject]
    rw [if_pos (by simp [hd, hid])]
  | cons x xs ih =>
    simp only [List.cons_append, updateFirstProject]
    rw [if_neg ?_]
    · exact congrArg (List.cons x)
        (ih (fun y hy => hpre y (List.mem_cons_of_mem _ hy)))
    · intro hc
      exact hpre x (List.mem_cons_self _ _) (by simpa using hc)

theorem findParsed_append (now : String) (v : Int) (pre post : List PyVal)
    (item : PyVal)
    (hpre : ∀ x ∈ pre, ∀ q, project_from_dict now x = some q → q.id ≠ v) :
    findParsed now v (pre ++ item :: post) =
      (match project_from_dict now item with
       | some q => if q.id = v then some q else findParsed now v post
       | none => findParsed now v post) := by
  induction pre with
  | nil => simp [findParsed]
  | cons x xs ih =>
    simp only [List.cons_append, findParsed]
    cases hx : project_from_dict now x with
    | none => exact ih (fun y hy => hpre y (List.mem_cons_of_mem _ hy))
    | some q =>
      dsimp only
      rw [if_neg (hpre x (List.mem_cons_self _ _) q hx)]
      exact ih (fun y hy => hpre y (List.mem_cons_of_mem _ hy))

/-- C10: when the stored catalog holds several records whose id field equals
the same value (here: stored order is `pre`, then `item`, then `post`, with
no match in `pre` and `item` matching), `delete_project` removes every
matching record in one call, while `update_project` and `touch_opened`
rewrite only the first matching record and `get_project` returns the first
matching record. -/
theorem duplicate_id_semantics (doc : PyVal) (v : Int)
    (pre post : List PyVal) (item : PyVal) (pItem : Project)
    (name path space now : String) (tags : List String)
    (hdec : projectsOf (load_state doc) = pre ++ item :: post)
    (hpre : ∀ x ∈ pre, ¬(isDictB x = true ∧ project_idOf x = v))
    (hd : isDictB item = true) (hid : project_idOf item = v)
    (hparse : project_from_dict now item = some pItem) :
    projectsOf (load_state (delete_project doc v)) =
      (pre ++ item :: post).filter
        (fun it => !(isDictB it && project_idOf it = v)) ∧
    (∀ it ∈ projectsOf (load_state (delete_project doc v)),
      ¬(isDictB it = true ∧ project_idOf it = v)) ∧
    projectsOf (load_state (update_project doc v name path space tags now)) =
      pre ++ updatedProjectItem item name path space tags now :: post ∧
    projectsOf (load_state (touch_opened doc v now)) =
      pre ++ touchedProjectItem item now :: post ∧
    get_project doc v now = some pItem := by
  have hhas : hasProjectId (projectsOf (load_state doc)) v = true := by
    rw [hdec]
    apply List.any_eq_true.mpr
    exact ⟨item, by simp, by simp [hd, hid]⟩
  refine ⟨?_, ?_, ?_, ?_, ?_⟩
  · rw [projectsOf_load_delete, hdec]
  · intro it hit
    rw [projectsOf_load_delete] at hit
    have := (List.mem_filter.mp hit).2
    intro hc
    simp [hc.1, hc.2] at this
  · unfold update_project
    simp only []
    rw [if_pos hhas, projectsOf_load_state, projectsOf_dictSet_projects, hdec]
    exact updateFirstProject_append v _ pre post item hpre hd hid
  · unfold touch_opened
    simp only []
    rw [if_pos hhas, projectsOf_load_state, projectsOf_dictSet_projects, hdec]
    exact updateFirstProject_append v _ pre post item hpre hd hid
  · unfold get_project
    rw [hdec]
    have hpre' : ∀ x ∈ pre, ∀ q, project_from_dict now x = some q →
        q.id ≠ v := by
      intro x hx q hq hc
      obtain ⟨hdx, hix⟩ := project_from_dict_id_eq now x q hq
      exact hpre x hx ⟨hdx, by rw [hix, hc]⟩
    rw [findParsed_append now v pre post item hpre']
    rw [hparse]
    simp only []
    rw [if_pos ?_]
    obtain ⟨-, hix⟩ := project_from_dict_id_eq now item pItem hparse
    rw [← hix]
    exact hid

/-- C10 witness: two records share id 7; delete removes both, update/touch
rewrite only the first, and get returns the first. -/
theorem duplicate_id_semantics_witness :
    get_project docDupIds 7 "t" =
      some (Project.mk 7 "first" "/f" DEFAULT_SPACE [] "t" "t" none) ∧
    projectsOf (load_state (delete_project docDupIds 7)) =
      ([.pdict [("id", .pint 7), ("name", .pstr "first"), ("path", .pstr "/f")],
        .pdict [("id", .pint 7), ("name", .pstr "second"), ("path", .pstr "/s")],
        .pdict [("id", .pint 9), ("name", .pstr "other"), ("path", .pstr "/o")]]
          : List PyVal).filter
        (fun it => !(isDictB it && project_idOf it = 7)) := by
  have h := duplicate_id_semantics docDupIds 7 []
    [.pdict [("id", .pint 7), ("name", .pstr "second"), ("path", .pstr "/s")],
     .pdict [("id", .pint 9), ("name", .pstr "other"), ("path", .pstr "/o")]]
    (.pdict [("id", .pint 7), ("name", .pstr "first"), ("path", .pstr "/f")])
    (Project.mk 7 "first" "/f" DEFAULT_SPACE [] "t" "t" none)
    "n" "/p" "s" "t" [] rfl (by simp) rfl (by decide) (by decide)
  exact ⟨h.2.2.2.2, h.1⟩

theorem findEntry_mkProjectItem_path (pid : Int) (name path space now : String)
    (tags : List String) :
    findEntry [("id", PyVal.pint pid), ("name", PyVal.pstr name),
               ("path", PyVal.pstr path),
               ("space", PyVal.pstr (normalize_space space)),
               ("tags", PyVal.plist ((normalize_tags tags).map PyVal.pstr)),
               ("created_at", PyVal.pstr now), ("updated_at", PyVal.pstr now),
               ("last_opened_at", PyVal.pnone)] "path" =
      some (PyVal.pstr path) := by
  simp [findEntry]

theorem itemPathStr_mkProjectItem (pid : Int) (name path space now : String)
    (tags : List String) :
    itemPathStr (mkProjectItem pid name path space tags now) = path := by
  unfold itemPathStr mkProjectItem dictGet
  dsimp only
  rw [findEntry_mkProjectItem_path]
  rfl

theorem list_project_paths_create (doc : PyVal) (name path space now : String)
    (tags : List String) (hp : path ≠ "") :
    list_project_paths (create_project doc name path space tags now) =
      list_project_paths doc ++ [path] := by
  unfold list_project_paths
  rw [projectsOf_load_state, projectsOf_create, projectsOf_load_state,
      List.filterMap_append]
  congr 1
  unfold mkProjectItem
  simp only [List.filterMap_cons, List.filterMap_nil]
  rw [show isDictB (PyVal.pdict _) = true from rfl]
  simp only [if_true, dictGet]
  rw [findEntry_mkProjectItem_path]
  simp [hp]

/-- Along an import run, the catalog's path set only grows, and every
non-hidden child ends up with its resolved path in the final path set
(the in-memory set must start below the catalog's paths). -/
theorem importLoop_paths (sv : String) (tags : List String) (now : String) :
    ∀ (es : List DirEntry) (doc : PyVal) (ex : List String) (added se sh : Nat),
      (∀ e ∈ es, e.resolved ≠ "") →
      (∀ s ∈ ex, s ∈ list_project_paths doc) →
      (∀ s ∈ list_project_paths doc,
        s ∈ list_project_paths (importLoop sv tags now es doc ex added se sh).1) ∧
      (∀ e ∈ es, startsWithDot e.name = false →
        e.resolved ∈
          list_project_paths (importLoop sv tags now es doc ex added se sh).1) := by
  intro es
  induction es with
  | nil =>
    intro doc ex a se sh _ _
    exact ⟨fun s hs => by simpa [importLoop] using hs, by simp⟩
  | cons e rest ih =>
    intro doc ex a se sh hres hex
    by_cases hhid : startsWithDot e.name = true
    · simp only [importLoop, hhid, if_true]
      obtain ⟨g1, g2⟩ := ih doc ex a se (sh + 1)
        (fun x hx => hres x (List.mem_cons_of_mem _ hx)) hex
      refine ⟨g1, ?_⟩
      intro x hx hnh
      rcases List.mem_cons.mp hx with rfl | hx'
      · exact absurd hhid (by simp [hnh])
      · exact g2 x hx' hnh
    · by_cases hcon : ex.contains e.resolved = true
      · simp only [importLoop, hhid, if_false, hcon, if_true, Bool.false_eq_true]
        obtain ⟨g1, g2⟩ := ih doc ex a (se + 1) sh
          (fun x hx => hres x (List.mem_cons_of_mem _ hx)) hex
        refine ⟨g1, ?_⟩
        intro x hx hnh
        rcases List.mem_cons.mp hx with rfl | hx'
        · exact g1 _ (hex _ (List.mem_of_elem_eq_true hcon))
        · exact g2 x hx' hnh
      · simp only [importLoop, hhid, hcon, if_false, Bool.false_eq_true]
        have hpaths :
            list_project_paths (create_project doc e.name e.resolved sv tags now) =
              list_project_paths doc ++ [e.resolved] :=
          list_project_paths_create doc e.name e.resolved sv now tags
            (hres e (List.mem_cons_self _ _))
        obtain ⟨g1, g2⟩ := ih (create_project doc e.name e.resolved sv tags now)
          (e.resolved :: ex) (a + 1) se sh
          (fun x hx => hres x (List.mem_cons_of_mem _ hx))
          (by
            intro s hs
            rw [hpaths]
            rcases List.mem_cons.mp hs with rfl | hs'
            · exact List.mem_append_right _ (List.mem_singleton_self _)
            · exact List.mem_append_left _ (hex s hs'))
        refine ⟨?_, ?_⟩
        · intro s hs
          exact g1 s (by rw [hpaths]; exact List.mem_append_left _ hs)
        · intro x hx hnh
          rcases List.mem_cons.mp hx with rfl | hx'
          · exact g1 x.resolved
              (by rw [hpaths]; exact List.mem_append_right _ (List.mem_singleton_self _))
          · exact g2 x hx' hnh

/-- An import run all of whose non-hidden children are already in the
in-memory path set creates nothing: the document is returned unchanged and
the counters record one skip per child. -/
theorem importLoop_all_existing (sv : String) (tags : List String) (now : String) :
    ∀ (es : List DirEntry) (doc : PyVal) (ex : List String) (added se sh : Nat),
      (∀ e ∈ es, startsWithDot e.name = false → ex.contains e.resolved = true) →
      importLoop sv tags now es doc ex added se sh =
        (doc, added, se + es.countP (fun e => !startsWithDot e.name),
         sh + es.countP (fun e => startsWithDot e.name)) := by
  intro es
  induction es with
  | nil =>
    intro doc ex a se sh _
    simp [importLoop]
  | cons e rest ih =>
    intro doc ex a se sh h
    by_cases hhid : startsWithDot e.name = true
    · simp only [importLoop, hhid, if_true]
      rw [ih doc ex a se (sh + 1) (fun x hx => h x (List.mem_cons_of_mem _ hx))]
      simp only [List.countP_cons, hhid, Bool.not_true, Bool.false_eq_true,
        if_true, if_false, Prod.mk.injEq, true_and]
      omega
    · have hcon := h e (List.mem_cons_self _ _) (by simpa using hhid)
      have hhid' : startsWithDot e.name = false := by simpa using hhid
      simp only [importLoop, hhid', if_false, hcon, if_true, Bool.false_eq_true]
      rw [ih doc ex a (se + 1) sh (fun x hx => h x (List.mem_cons_of_mem _ hx))]
      simp only [List.countP_cons, hhid', Bool.not_false, Bool.false_eq_true,
        if_true, if_false, Prod.mk.injEq, true_and]
      omega

/-- The records appended by one import run carry pairwise distinct paths,
none of which was in the in-memory path set the run started from. -/
theorem importLoop_created (sv : String) (tags : List String) (now : String) :
    ∀ (es : List DirEntry) (doc : PyVal) (ex : List String) (added se sh : Nat),
      ∃ newItems : List PyVal,
        projectsOf
            (load_state (importLoop sv tags now es doc ex added se sh).1) =
          projectsOf (load_state doc) ++ newItems ∧
        (newItems.map itemPathStr).Nodup ∧
        (∀ s ∈ newItems.map itemPathStr, ex.contains s = false) := by
  intro es
  induction es with
  | nil =>
    intro doc ex a se sh
    exact ⟨[], by simp [importLoop], by simp, by simp⟩
  | cons e rest ih =>
    intro doc ex a se sh
    by_cases hhid : startsWithDot e.name = true
    · simp only [importLoop, hhid, if_true]
      exact ih doc ex a se (sh + 1)
    · by_cases hcon : ex.contains e.resolved = true
      · simp only [importLoop, hhid, hcon, if_true, if_false, Bool.false_eq_true]
        exact ih doc ex a (se + 1) sh
      · simp only [importLoop, hhid, hcon, if_false, Bool.false_eq_true]
        obtain ⟨ni, h1, h2, h3⟩ := ih
          (create_project doc e.name e.resolved sv tags now)
          (e.resolved :: ex) (a + 1) se sh
        refine ⟨mkProjectItem (nextIdOf (load_state doc)) e.name e.resolved
            sv tags now :: ni, ?_, ?_, ?_⟩
        · rw [h1, projectsOf_load_state_create, projectsOf_load_state]
          simp
        · simp only [List.map_cons, List.nodup_cons, itemPathStr_mkProjectItem]
          refine ⟨?_, h2⟩
          intro hc
          have := h3 _ hc
          simp at this
        · intro s hs
          simp only [List.map_cons, itemPathStr_mkProjectItem,
            List.mem_cons] at hs
          rcases hs with rfl | hs'
          · simpa using hcon
          · have := h3 s hs'
            simp only [List.contains_cons, Bool.or_eq_false_iff] at this
            exact this.2

theorem import_projects_run (parent : ParentDir) (doc : PyVal)
    (space now : String) (tags : List String)
    (hpe : parent.pexists = true) (hpd : parent.isDir = true)
    (doc' : PyVal) (a se sh : Nat)
    (hloop : importLoop
        (if pyStrip space ≠ "" then pyStrip space
         else if pyStrip parent.pname ≠ "" then pyStrip parent.pname
         else DEFAULT_SPACE) tags now
        (sortL (fun a b => strLe (lowerStr a.name) (lowerStr b.name))
          (parent.entries.filter (·.isDir)))
        doc (list_project_paths doc) 0 0 0 = (doc', a, se, sh)) :
    import_projects parent doc space tags now =
      .ok ({ added := a, skipped_existing := se, skipped_hidden := sh,
             total_children := (parent.entries.filter (·.isDir)).length,
             space := (if pyStrip space ≠ "" then pyStrip space
               else if pyStrip parent.pname ≠ "" then pyStrip parent.pname
               else DEFAULT_SPACE) }, doc') := by
  unfold import_projects
  rw [hpe, hpd]
  rw [if_neg (by simp)]
  simp only []
  rw [hloop]

theorem countP_not_add {α : Type} (p : α → Bool) (l : List α) :
    l.countP (fun a => !p a) + l.countP p = l.length := by
  induction l with
  | nil => rfl
  | cons x xs ih =>
    simp only [List.countP_cons, List.length_cons]
    by_cases hx : p x = true
    · simp only [hx, Bool.not_true, Bool.false_eq_true, if_true, if_false]
      omega
    · have hx' : p x = false := by simpa using hx
      simp only [hx', Bool.not_false, Bool.false_eq_true, if_true, if_false]
      omega

/-- C5: importing the same parent directory twice over an unchanged
filesystem yields added = 0 and skippedExisting = totalChildren −
skippedHidden on the second run (which also leaves the catalog document
unchanged); and within any single run, the in-memory path set updated
after each creation guarantees the created records carry pairwise distinct
paths — no two children resolving to the same absolute path are both
created. -/
theorem import_twice_dedup (parent : ParentDir) (doc : PyVal)
    (space space2 now now2 : String) (tags tags2 : List String)
    (hpe : parent.pexists = true) (hpd : parent.isDir = true)
    (hres : ∀ e ∈ parent.entries, e.resolved ≠ "") :
    ∃ s1 doc1 s2 doc2,
      import_projects parent doc space tags now = .ok (s1, doc1) ∧
      import_projects parent doc1 space2 tags2 now2 = .ok (s2, doc2) ∧
      s2.added = 0 ∧
      s2.skipped_existing = s2.total_children - s2.skipped_hidden ∧
      doc2 = doc1 ∧
      (∃ newItems : List PyVal,
        projectsOf (load_state doc1) = projectsOf (load_state doc) ++ newItems ∧
        (newItems.map itemPathStr).Nodup) := by
  rcases hloop1 : importLoop
      (if pyStrip space ≠ "" then pyStrip space
       else if pyStrip parent.pname ≠ "" then pyStrip parent.pname
       else DEFAULT_SPACE) tags now
      (sortL (fun a b => strLe (lowerStr a.name) (lowerStr b.name))
        (parent.entries.filter (·.isDir)))
      doc (list_project_paths doc) 0 0 0 with ⟨doc1, a1, se1, sh1⟩
  have hres' : ∀ e ∈ sortL (fun a b => strLe (lowerStr a.name) (lowerStr b.name))
      (parent.entries.filter (·.isDir)), e.resolved ≠ "" := by
    intro e he
    exact hres e (List.mem_filter.mp ((mem_sortL _ _ _).mp he)).1
  have hp := importLoop_paths
    (if pyStrip space ≠ "" then pyStrip space
     else if pyStrip parent.pname ≠ "" then pyStrip parent.pname
     else DEFAULT_SPACE) tags now
    (sortL (fun a b => strLe (lowerStr a.name) (lowerStr b.name))
      (parent.entries.filter (·.isDir)))
    doc (list_project_paths doc) 0 0 0 hres' (fun s hs => hs)
  rw [hloop1] at hp
  have hex2 : ∀ e ∈ sortL (fun a b => strLe (lowerStr a.name) (lowerStr b.name))
      (parent.entries.filter (·.isDir)), startsWithDot e.name = false →
      (list_project_paths doc1).contains e.resolved = true := by
    intro e he hnh
    exact List.elem_eq_true_of_mem (hp.2 e he hnh)
  have hloop2 := importLoop_all_existing
    (if pyStrip space2 ≠ "" then pyStrip space2
     else if pyStrip parent.pname ≠ "" then pyStrip parent.pname
     else DEFAULT_SPACE) tags2 now2
    (sortL (fun a b => strLe (lowerStr a.name) (lowerStr b.name))
      (parent.entries.filter (·.isDir)))
    doc1 (list_project_paths doc1) 0 0 0 hex2
  obtain ⟨ni, hni1, hni2, -⟩ := importLoop_created
    (if pyStrip space ≠ "" then pyStrip space
     else if pyStrip parent.pname ≠ "" then pyStrip parent.pname
     else DEFAULT_SPACE) tags now
    (sortL (fun a b => strLe (lowerStr a.name) (lowerStr b.name))
      (parent.entries.filter (·.isDir)))
    doc (list_project_paths doc) 0 0 0
  rw [hloop1] at hni1
  have hc := countP_not_add (fun e : DirEntry => startsWithDot e.name)
    (sortL (fun a b => strLe (lowerStr a.name) (lowerStr b.name))
      (parent.entries.filter (·.isDir)))
  have hlen : (sortL (fun a b => strLe (lowerStr a.name) (lowerStr b.name))
      (parent.entries.filter (·.isDir))).length =
      (parent.entries.filter (·.isDir)).length := (sortL_perm _ _).length_eq
  refine ⟨_, doc1, _, doc1,
    import_projects_run parent doc space now tags hpe hpd doc1 a1 se1 sh1 hloop1,
    import_projects_run parent doc1 space2 now2 tags2 hpe hpd doc1 _ _ _ hloop2,
    rfl, ?_, rfl, ⟨ni, hni1, hni2⟩⟩
  simp only []
  omega

/-- C5 witness: the spec's import scenario run twice: /work with children
.git, api, web where /work/api is already cataloged. -/
theorem import_twice_dedup_witness :
    ∃ s1 doc1 s2 doc2,
      import_projects parentWork docWorkApi "" [] "t" = .ok (s1, doc1) ∧
      import_projects parentWork doc1 "" [] "t2" = .ok (s2, doc2) ∧
      s2.added = 0 ∧
      s2.skipped_existing = s2.total_children - s2.skipped_hidden ∧
      doc2 = doc1 ∧
      (∃ newItems : List PyVal,
        projectsOf (load_state doc1) =
          projectsOf (load_state docWorkApi) ++ newItems ∧
        (newItems.map itemPathStr).Nodup) :=
  import_twice_dedup parentWork docWorkApi "" "" "t" "t2" [] [] rfl rfl
    (by decide)

theorem mem_groups_addToGroup (acc : List (String × List Project))
    (p q : Project) :
    (∃ g ∈ addToGroup acc p, q ∈ g.2) ↔ (∃ g ∈ acc, q ∈ g.2) ∨ q = p := by
  induction acc with
  | nil => simp [addToGroup]
  | cons g rest ih =>
    obtain ⟨s, xs⟩ := g
    simp only [addToGroup]
    by_cases hs : s = p.space
    · rw [if_pos hs]
      constructor
      · rintro ⟨g', hg', hq⟩
        rcases List.mem_cons.mp hg' with rfl | hg'
        · rcases List.mem_append.mp hq with h | h
          · exact Or.inl ⟨(s, xs), List.mem_cons_self _ _, h⟩
          · exact Or.inr (List.mem_singleton.mp h)
        · exact Or.inl ⟨g', List.mem_cons_of_mem _ hg', hq⟩
      · rintro (⟨g', hg', hq⟩ | hq)
        · rcases List.mem_cons.mp hg' with rfl | hg'
          · exact ⟨(s, xs ++ [p]), List.mem_cons_self _ _,
              List.mem_append_left _ hq⟩
          · exact ⟨g', List.mem_cons_of_mem _ hg', hq⟩
        · exact ⟨(s, xs ++ [p]), List.mem_cons_self _ _,
            List.mem_append_right _ (by simp [hq])⟩
    · rw [if_neg hs]
      constructor
      · rintro ⟨g', hg', hq⟩
        rcases List.mem_cons.mp hg' with rfl | hg'
        · exact Or.inl ⟨(s, xs), List.mem_cons_self _ _, hq⟩
        · rcases ih.mp ⟨g', hg', hq⟩ with ⟨g2, hg2, hq2⟩ | h
          · exact Or.inl ⟨g2, List.mem_cons_of_mem _ hg2, hq2⟩
          · exact Or.inr h
      · rintro (⟨g', hg', hq⟩ | hq)
        · rcases List.mem_cons.mp hg' with rfl | hg'
          · exact ⟨(s, xs), List.mem_cons_self _ _, hq⟩
          · obtain ⟨g2, hg2, hq2⟩ := ih.mpr (Or.inl ⟨g', hg', hq⟩)
            exact ⟨g2, List.mem_cons_of_mem _ hg2, hq2⟩
        · obtain ⟨g2, hg2, hq2⟩ := ih.mpr (Or.inr hq)
          exact ⟨g2, List.mem_cons_of_mem _ hg2, hq2⟩

theorem mem_groupSpaces_aux (ps : List Project) :
    ∀ (acc : List (String × List Project)) (q : Project),
      (∃ g ∈ ps.foldl addToGroup acc, q ∈ g.2) ↔
        (∃ g ∈ acc, q ∈ g.2) ∨ q ∈ ps := by
  induction ps with
  | nil => intro acc q; simp
  | cons p rest ih =>
    intro acc q
    simp only [List.foldl_cons]
    rw [ih, mem_groups_addToGroup]
    simp only [List.mem_cons]
    exact or_assoc

theorem mem_groupSpaces (ps : List Project) (q : Project) :
    (∃ g ∈ groupSpaces ps, q ∈ g.2) ↔ q ∈ ps := by
  unfold groupSpaces
  rw [mem_groupSpaces_aux]
  simp

theorem keys_addToGroup (acc : List (String × List Project)) (p : Project)
    (t : String) :
    (∃ g ∈ addToGroup acc p, g.1 = t) ↔
      (∃ g ∈ acc, g.1 = t) ∨ p.space = t := by
  induction acc with
  | nil => simp [addToGroup]
  | cons g rest ih =>
    obtain ⟨s, xs⟩ := g
    simp only [addToGroup]
    by_cases hs : s = p.space
    · rw [if_pos hs]
      constructor
      · rintro ⟨g', hg', ht⟩
        rcases List.mem_cons.mp hg' with rfl | hg'
        · exact Or.inl ⟨(s, xs), List.mem_cons_self _ _, ht⟩
        · exact Or.inl ⟨g', List.mem_cons_of_mem _ hg', ht⟩
      · rintro (⟨g', hg', ht⟩ | ht)
        · rcases List.mem_cons.mp hg' with rfl | hg'
          · exact ⟨(s, xs ++ [p]), List.mem_cons_self _ _, ht⟩
          · exact ⟨g', List.mem_cons_of_mem _ hg', ht⟩
        · exact ⟨(s, xs ++ [p]), List.mem_cons_self _ _, hs.trans ht⟩
    · rw [if_neg hs]
      constructor
      · rintro ⟨g', hg', ht⟩
        rcases List.mem_cons.mp hg' with rfl | hg'
        · exact Or.inl ⟨(s, xs), List.mem_cons_self _ _, ht⟩
        · rcases ih.mp ⟨g', hg', ht⟩ with ⟨g2, hg2, ht2⟩ | h
          · exact Or.inl ⟨g2, List.mem_cons_of_mem _ hg2, ht2⟩
          · exact Or.inr h
      · rintro (⟨g', hg', ht⟩ | ht)
        · rcases List.mem_cons.mp hg' with rfl | hg'
          · exact ⟨(s, xs), List.mem_cons_self _ _, ht⟩
          · obtain ⟨g2, hg2, ht2⟩ := ih.mpr (Or.inl ⟨g', hg', ht⟩)
            exact ⟨g2, List.mem_cons_of_mem _ hg2, ht2⟩
        · obtain ⟨g2, hg2, ht2⟩ := ih.mpr (Or.inr ht)
          exact ⟨g2, List.mem_cons_of_mem _ hg2, ht2⟩

theorem keys_groupSpaces_aux (ps : List Project) :
    ∀ (acc : List (String × List Project)) (s : String),
      (∃ g ∈ ps.foldl addToGroup acc, g.1 = s) ↔
        (∃ g ∈ acc, g.1 = s) ∨ ∃ q ∈ ps, q.space = s := by
  induction ps with
  | nil => intro acc s; simp
  | cons p rest ih =>
    intro acc s
    simp only [List.foldl_cons]
    rw [ih, keys_addToGroup]
    simp only [List.mem_cons, exists_eq_or_imp]
    exact or_assoc

theorem keys_groupSpaces (ps : List Project) (s : String) :
    (∃ g ∈ groupSpaces ps, g.1 = s) ↔ ∃ q ∈ ps, q.space = s := by
  unfold groupSpaces
  rw [keys_groupSpaces_aux]
  simp

theorem mem_treeProjectIds (ps : List Project) (i : Int) :
    i ∈ treeProjectIds ps ↔ ∃ q ∈ ps, q.id = i := by
  unfold treeProjectIds sortedSpaceGroups
  rw [List.mem_flatten]
  constructor
  · rintro ⟨l, hl, hi⟩
    obtain ⟨g, hg, rfl⟩ := List.mem_map.mp hl
    obtain ⟨q, hq, rfl⟩ := List.mem_map.mp hi
    have hq' : q ∈ g.2 := (mem_sortL _ _ _).mp hq
    have hg' : g ∈ groupSpaces ps := (mem_sortL _ _ _).mp hg
    exact ⟨q, (mem_groupSpaces ps q).mp ⟨g, hg', hq'⟩, rfl⟩
  · rintro ⟨q, hq, rfl⟩
    obtain ⟨g, hg, hq'⟩ := (mem_groupSpaces ps q).mpr hq
    refine ⟨(sortL (fun a b => strLe (nameKey a) (nameKey b)) g.2).map (·.id),
      List.mem_map.mpr ⟨g, (mem_sortL _ _ _).mpr hg, rfl⟩,
      List.mem_map.mpr ⟨q, (mem_sortL _ _ _).mpr hq', rfl⟩⟩

theorem mem_treeSpaceNames (ps : List Project) (s : String) :
    s ∈ treeSpaceNames ps ↔ ∃ q ∈ ps, q.space = s := by
  unfold treeSpaceNames sortedSpaceGroups
  rw [← keys_groupSpaces]
  constructor
  · intro h
    obtain ⟨g, hg, rfl⟩ := List.mem_map.mp h
    exact ⟨g, (mem_sortL _ _ _).mp hg, rfl⟩
  · rintro ⟨g, hg, rfl⟩
    exact List.mem_map.mpr ⟨g, (mem_sortL _ _ _).mpr hg, rfl⟩

theorem treeProjectIds_nil (ps : List Project)
    (h : treeProjectIds ps = []) : ps = [] := by
  cases hps : ps with
  | nil => rfl
  | cons q rest =>
    have hmem := (mem_treeProjectIds ps q.id).mpr
      ⟨q, by rw [hps]; exact List.mem_cons_self _ _, rfl⟩
    rw [h] at hmem
    exact absurd hmem (List.not_mem_nil _)

theorem optKeepMem_some_of {α : Type} [BEq α] [LawfulBEq α] (a : α)
    (xs : List α) (h : a ∈ xs) : optKeepMem (some a) xs = some a := by
  unfold optKeepMem
  dsimp only
  have h' : xs.contains a = true := List.elem_eq_true_of_mem h
  rw [if_pos h']

theorem optKeepMem_none_of {α : Type} [BEq α] [LawfulBEq α] (v : Option α)
    (xs : List α) (h : ∀ a, v = some a → a ∉ xs) : optKeepMem v xs = none := by
  cases v with
  | none => rfl
  | some a =>
    unfold optKeepMem
    dsimp only
    rw [if_neg ?_]
    intro hc
    exact h a rfl (List.mem_of_elem_eq_true hc)

theorem optKeepMem_eq_some {α : Type} [BEq α] [LawfulBEq α] (v : Option α)
    (xs : List α) (a : α) (h : optKeepMem v xs = some a) :
    v = some a ∧ a ∈ xs := by
  cases v with
  | none => exact absurd h (by simp [optKeepMem])
  | some b =>
    unfold optKeepMem at h
    dsimp only at h
    by_cases hc : xs.contains b = true
    · rw [if_pos hc] at h
      rw [Option.some_inj] at h
      subst h
      exact ⟨rfl, List.mem_of_elem_eq_true hc⟩
    · rw [if_neg hc] at h
      exact absurd h (by simp)

/-- C4 counterexample: catalog with project 1 ("z", space "bb", opened) and
project 2 ("a", space "aa", never opened); the freshly sorted list is
[1, 2], no previous selection exists, yet refresh selects project 2 — the
first project in tree order, not the first project of the freshly sorted
list. -/
theorem refresh_selection_counterexample :
    refresh_selection (list_projects docTwoSpaces "" "t") none none =
      Selection.projSel 2 ∧
    (list_projects docTwoSpaces "" "t").map (·.id) = [1, 2] :=
  ⟨by decide, by decide⟩

/-- C4 (amended): on refresh the selection is resolved in this order, each
step only if the previous is unavailable: (1) keep the previous project if
its id still exists; (2) keep the previous space if it still has at least
one project; (3) select the first project in tree order (spaces sorted
case-insensitively ascending, projects within a space sorted
case-insensitively by name); (4) if there is no project there is also no
space (spaces exist only through their projects), so the result is no
selection.  The resulting selection never references a project id or space
name absent from the fresh catalog list. -/
theorem refresh_selection_resolution (ps : List Project) (prevP : Option Int)
    (prevS : Option String) :
    (∀ p, prevP = some p → (∃ q ∈ ps, q.id = p) →
      refresh_selection ps prevP prevS = .projSel p) ∧
    (∀ s, (∀ p, prevP = some p → ¬∃ q ∈ ps, q.id = p) →
      prevS = some s → (∃ q ∈ ps, q.space = s) →
      refresh_selection ps prevP prevS = .spaceSel s) ∧
    ((∀ p, prevP = some p → ¬∃ q ∈ ps, q.id = p) →
     (∀ s, prevS = some s → ¬∃ q ∈ ps, q.space = s) →
     ∀ i rest, treeProjectIds ps = i :: rest →
       refresh_selection ps prevP prevS = .projSel i) ∧
    ((∀ p, prevP = some p → ¬∃ q ∈ ps, q.id = p) →
     (∀ s, prevS = some s → ¬∃ q ∈ ps, q.space = s) →
     treeProjectIds ps = [] →
       refresh_selection ps prevP prevS = .noSel) ∧
    (∀ i, refresh_selection ps prevP prevS = .projSel i →
      ∃ q ∈ ps, q.id = i) ∧
    (∀ s, refresh_selection ps prevP prevS = .spaceSel s →
      ∃ q ∈ ps, q.space = s) := by
  refine ⟨?_, ?_, ?_, ?_, ?_, ?_⟩
  · intro p hp hex
    subst hp
    unfold refresh_selection
    dsimp only
    rw [optKeepMem_some_of p _ ((mem_treeProjectIds ps p).mpr hex)]
  · intro s hnp hs hex
    subst hs
    unfold refresh_selection
    dsimp only
    rw [optKeepMem_none_of _ _
        (fun a ha => (mem_treeProjectIds ps a).not.mpr (hnp a ha)),
      optKeepMem_some_of s _ ((mem_treeSpaceNames ps s).mpr hex)]
  · intro hnp hns i rest htree
    unfold refresh_selection
    dsimp only
    rw [optKeepMem_none_of _ _
        (fun a ha => (mem_treeProjectIds ps a).not.mpr (hnp a ha)),
      optKeepMem_none_of _ _
        (fun a ha => (mem_treeSpaceNames ps a).not.mpr (hns a ha)),
      htree]
  · intro hnp hns htree
    have hps : ps = [] := treeProjectIds_nil ps htree
    subst hps
    cases prevP <;> cases prevS <;> rfl
  · intro i hi
    unfold refresh_selection at hi
    dsimp only at hi
    cases hP : optKeepMem prevP (treeProjectIds ps) with
    | some p =>
      rw [hP] at hi
      simp only [Selection.projSel.injEq] at hi
      subst hi
      exact (mem_treeProjectIds ps p).mp (optKeepMem_eq_some _ _ _ hP).2
    | none =>
      rw [hP] at hi
      cases hS : optKeepMem prevS (treeSpaceNames ps) with
      | some s =>
        rw [hS] at hi
        exact absurd hi (by simp)
      | none =>
        rw [hS] at hi
        cases hfirst : treeProjectIds ps with
        | cons p rest =>
          rw [hfirst] at hi
          simp only [Selection.projSel.injEq] at hi
          subst hi
          exact (mem_treeProjectIds ps p).mp
            (by rw [hfirst]; exact List.mem_cons_self _ _)
        | nil =>
          rw [hfirst] at hi
          cases hsn : treeSpaceNames ps with
          | cons s r =>
            rw [hsn] at hi
            exact absurd hi (by simp)
          | nil =>
            rw [hsn] at hi
            exact absurd hi (by simp)
  · intro s hs
    unfold refresh_selection at hs
    dsimp only at hs
    cases hP : optKeepMem prevP (treeProjectIds ps) with
    | some p =>
      rw [hP] at hs
      exact absurd hs (by simp)
    | none =>
      rw [hP] at hs
      cases hS : optKeepMem prevS (treeSpaceNames ps) with
      | some s0 =>
        rw [hS] at hs
        simp only [Selection.spaceSel.injEq] at hs
        subst hs
        exact (mem_treeSpaceNames ps s0).mp (optKeepMem_eq_some _ _ _ hS).2
      | none =>
        rw [hS] at hs
        cases hfirst : treeProjectIds ps with
        | cons p rest =>
          rw [hfirst] at hs
          exact absurd hs (by simp)
        | nil =>
          rw [hfirst] at hs
          cases hsn : treeSpaceNames ps with
          | cons s0 r =>
            rw [hsn] at hs
            simp only [Selection.spaceSel.injEq] at hs
            subst hs
            exact (mem_treeSpaceNames ps s0).mp
              (by rw [hsn]; exact List.mem_cons_self _ _)
          | nil =>
            rw [hsn] at hs
            exact absurd hs (by simp)

/-- C4 (amended) witness: with no previous selection and the two-space
catalog, step (3) selects the head of the tree order, project 2. -/
theorem refresh_selection_resolution_witness :
    refresh_selection (list_projects docTwoSpaces "" "t") none none =
      Selection.projSel 2 :=
  (refresh_selection_resolution (list_projects docTwoSpaces "" "t")
      none none).2.2.1
    (fun p hp => Option.noConfusion hp)
    (fun s hs => Option.noConfusion hs)
    2 [1] (by decide)

/-- C9 witness: with an empty control-key table, ctrl+f1 is swallowed,
ctrl+c becomes the byte 3, and the plain key "x" forwards its character. -/
theorem on_key_translation_witness :
    on_key (fun _ => none) true "ctrl+f1" (some "x") = none ∧
    on_key (fun _ => none) true ("ctrl+" ++ (⟨['c']⟩ : String)) (some "x") =
      some ⟨[Char.ofNat ('c'.toNat - 'a'.toNat + 1)]⟩ ∧
    on_key (fun _ => none) true "x" (some "x") = some "x" :=
  ⟨(on_key_translation (fun _ => none) (some "x") "x" 'c' "x").1,
   (on_key_translation (fun _ => none) (some "x") "x" 'c' "x").2.1 rfl
     (by decide) (by decide),
   (on_key_translation (fun _ => none) (some "x") "x" 'c' "x").2.2
     (by decide) rfl (fun hl => by simp [leadsCL] at hl) rfl (by decide)⟩

end DevHaven
